import Mathlib

/-!
Verification of the Diversion Aggregation & Ranking Engine of the Eco
Academy client (files `app/(tabs)/waste-diversion.tsx` and
`app/(tabs)/leaderboard.tsx`).

The engine works over loosely-typed JavaScript values read from a backend
table.  We embed the JavaScript value domain shallowly: a JS number is
either a finite value (modelled exactly as a rational, the standard
idealisation of IEEE doubles for this integer/decimal dataset), `NaN`, or a
signed infinity; the other engine-relevant values are strings, `null` and
`undefined`.  Negative zero is identified with zero (the engine never
distinguishes them).  All definitions in the first half of this file are
direct translations of the TypeScript source; the second half proves the
specified properties about them.
-/

/-- A JavaScript number: finite (exact rational), `NaN`, `Infinity` or
`-Infinity`. -/
inductive JsNum where
  | fin (q : ℚ)
  | nan
  | posInf
  | negInf
deriving DecidableEq

/-- A JavaScript value as the engine can encounter it: a number, a string,
`null` or `undefined`. -/
inductive JsVal where
  | vnum (n : JsNum)
  | vstr (s : String)
  | vnull
  | vundef
deriving DecidableEq

/-- JavaScript `StrWhiteSpace` characters skipped by `parseFloat` and
`ToNumber` (the ASCII ones plus NBSP and the BOM; the exotic Unicode space
characters never occur in this dataset). -/
def isJsWS (c : Char) : Bool :=
  c.toNat = 9 || c.toNat = 10 || c.toNat = 11 || c.toNat = 12 ||
  c.toNat = 13 || c.toNat = 32 || c.toNat = 160 || c.toNat = 65279

/-- Value of a list of decimal digit characters (most significant first). -/
def digitsToNat (ds : List Char) : ℕ :=
  ds.foldl (fun a c => 10 * a + (c.toNat - 48)) 0

/-- Scale a rational by a signed power of ten (the exponent part of a JS
numeric literal). -/
def applyExp (q : ℚ) (e : ℤ) : ℚ :=
  if 0 ≤ e then q * 10 ^ e.toNat else q / 10 ^ (-e).toNat

/-- Value of a valid `ExponentPart` prefix of the given characters, `0` when
no valid exponent part starts there (then `parseFloat` simply stops before
the `e`). -/
def parseExp (cs : List Char) : ℤ :=
  if cs.head? = some 'e' ∨ cs.head? = some 'E' then parseExpTail cs.tail
  else 0
where
  parseExpTail (r : List Char) : ℤ :=
    match r with
    | '+' :: t => parseExpDigits 1 t
    | '-' :: t => parseExpDigits (-1) t
    | t => parseExpDigits 1 t
  parseExpDigits (sg : ℤ) (t : List Char) : ℤ :=
    let ds := t.takeWhile Char.isDigit
    if ds.isEmpty then 0 else sg * (digitsToNat ds : ℤ)

/-- Body of `parseFloat` after whitespace and sign: longest valid
`StrUnsignedDecimalLiteral` prefix (or an `Infinity` literal), `NaN` when
none exists. -/
def parseFloatBody (sgn : ℚ) (cs : List Char) : JsNum :=
  if cs.take 8 = "Infinity".data then
    if sgn < 0 then .negInf else .posInf
  else
    let ip := cs.takeWhile Char.isDigit
    let cs2 := cs.dropWhile Char.isDigit
    let fp := if cs2.head? = some '.' then cs2.tail.takeWhile Char.isDigit else []
    let cs3 := if cs2.head? = some '.' then cs2.tail.dropWhile Char.isDigit else cs2
    if ip.isEmpty && fp.isEmpty then .nan
    else .fin (applyExp (sgn * ((digitsToNat ip : ℚ) + (digitsToNat fp : ℚ) / 10 ^ fp.length)) (parseExp cs3))

/-- JavaScript `parseFloat`: skip leading whitespace, optional sign, then
the longest valid decimal-literal (or `Infinity`) prefix; `NaN` when no
valid prefix exists.  Trailing garbage is ignored. -/
def parseFloatJS (s : String) : JsNum :=
  let cs := s.data.dropWhile isJsWS
  if cs.head? = some '+' then parseFloatBody 1 cs.tail
  else if cs.head? = some '-' then parseFloatBody (-1) cs.tail
  else parseFloatBody 1 cs

/-- The `.replace(/,/g, "")` step of the normalizer: drop every comma. -/
def stripCommas (s : String) : String :=
  ⟨s.data.filter (fun c => c ≠ ',')⟩

/-- The `Number.isFinite(n) ? n : 0` step of the normalizer. -/
def finOrZero (n : JsNum) : ℚ :=
  match n with
  | .fin q => q
  | _ => 0

/-- The record normalizer `num` (spec name `normalizeNumber`), from
`waste-diversion.tsx` lines 24-27:
`typeof v === "number" ? v : parseFloat(String(v ?? "").replace(/,/g, ""))`
guarded by `Number.isFinite`.  `String(null ?? "")` and
`String(undefined ?? "")` are both the empty string. -/
def num (v : JsVal) : ℚ :=
  match v with
  | .vnum n => finOrZero n
  | .vstr s => finOrZero (parseFloatJS (stripCommas s))
  | .vnull => finOrZero (parseFloatJS (stripCommas ""))
  | .vundef => finOrZero (parseFloatJS (stripCommas ""))

/-! ### JavaScript number/string conversions and operators

The leaderboard screen (unlike the per-school dashboard) does not use the
normalizer: it computes with raw JS operators (`||`, `+`, `>`, `/`,
`Math.max`).  We model those operators faithfully over `JsVal`/`JsNum`. -/

/-- Decimal digit character for a digit value (values `≥ 9` clamp to `9`;
callers only pass `d < 10`). -/
def digitChar (d : ℕ) : Char :=
  match d with
  | 0 => '0' | 1 => '1' | 2 => '2' | 3 => '3' | 4 => '4'
  | 5 => '5' | 6 => '6' | 7 => '7' | 8 => '8' | _ => '9'

/-- Decimal digits of `n`, most significant first (`[]` for `n = 0`); the
first argument is structural fuel, `n` itself always suffices. -/
def natToChars : ℕ → ℕ → List Char
  | 0, _ => []
  | fuel + 1, n => if n = 0 then [] else natToChars fuel (n / 10) ++ [digitChar (n % 10)]

/-- Decimal string of a natural number, as JS `String(n)` prints it. -/
def natToStr (n : ℕ) : String :=
  if n = 0 then "0" else ⟨natToChars n n⟩

/-- Decimal string of an integer, as JS `String(i)` prints it. -/
def intToStr (i : ℤ) : String :=
  if i < 0 then "-" ++ natToStr i.natAbs else natToStr i.toNat

/-- Fractional decimal digits of `r / d` by long division (`0 < r < d`),
stopping at remainder zero or when the fuel runs out.  JS prints the
shortest round-tripping decimal of a double; on the terminating decimals
this development stringifies (only integers, in fact) the two agree. -/
def fracChars : ℕ → ℕ → ℕ → List Char
  | 0, _, _ => []
  | _, 0, _ => []
  | fuel + 1, r, d => digitChar (10 * r / d % 10) :: fracChars fuel (10 * r % d) d

/-- Decimal string of a rational, as JS `String` on the corresponding
number (exact on integers and short terminating decimals). -/
def ratToStr (q : ℚ) : String :=
  let sign := if q < 0 then "-" else ""
  let n := q.num.natAbs
  let d := q.den
  if n % d = 0 then sign ++ natToStr (n / d)
  else sign ++ natToStr (n / d) ++ "." ++ ⟨fracChars 40 (n % d) d⟩

/-- JS `ToString` on a number. -/
def numToStr : JsNum → String
  | .nan => "NaN"
  | .posInf => "Infinity"
  | .negInf => "-Infinity"
  | .fin q => ratToStr q

/-- JS `ToString` on an engine value. -/
def jsToStr : JsVal → String
  | .vstr s => s
  | .vnum n => numToStr n
  | .vnull => "null"
  | .vundef => "undefined"

/-- JS truthiness (`Boolean(v)`) on an engine value: `0`, `NaN`, the empty
string, `null` and `undefined` are falsy. -/
def truthy : JsVal → Bool
  | .vnum (.fin q) => q ≠ 0
  | .vnum .nan => false
  | .vnum .posInf => true
  | .vnum .negInf => true
  | .vstr s => s ≠ ""
  | .vnull => false
  | .vundef => false

/-- JS `a || b`: `a` when truthy, otherwise `b`. -/
def jsOr (a b : JsVal) : JsVal :=
  if truthy a then a else b

def isHexDigit (c : Char) : Bool :=
  c.isDigit || ('a' ≤ c && c ≤ 'f') || ('A' ≤ c && c ≤ 'F')

def hexDigitVal (c : Char) : ℕ :=
  if c.isDigit then c.toNat - 48
  else if 'a' ≤ c && c ≤ 'f' then c.toNat - 87
  else c.toNat - 55

def hexDigitsToNat (ds : List Char) : ℕ :=
  ds.foldl (fun a c => 16 * a + hexDigitVal c) 0

def binDigitsToNat (ds : List Char) : ℕ :=
  ds.foldl (fun a c => 2 * a + (c.toNat - 48)) 0

def octDigitsToNat (ds : List Char) : ℕ :=
  ds.foldl (fun a c => 8 * a + (c.toNat - 48)) 0

/-- An `ExponentPart` that must consume the whole remaining input (the
full-match grammar of `ToNumber`, unlike the prefix grammar of
`parseFloat`); `none` when the input is not exactly an exponent part. -/
def expFull (cs : List Char) : Option ℤ :=
  match cs with
  | [] => some 0
  | 'e' :: r => expFullTail r
  | 'E' :: r => expFullTail r
  | _ => none
where
  expFullTail (r : List Char) : Option ℤ :=
    match r with
    | '+' :: t => expFullDigits 1 t
    | '-' :: t => expFullDigits (-1) t
    | t => expFullDigits 1 t
  expFullDigits (sg : ℤ) (t : List Char) : Option ℤ :=
    let ds := t.takeWhile Char.isDigit
    if ds.isEmpty || !(t.dropWhile Char.isDigit).isEmpty then none
    else some (sg * (digitsToNat ds : ℤ))

/-- An unsigned `StrUnsignedDecimalLiteral` that must consume the whole
input; `none` when the input is not exactly such a literal. -/
def decFull (cs : List Char) : Option ℚ :=
  let ip := cs.takeWhile Char.isDigit
  let cs2 := cs.dropWhile Char.isDigit
  match cs2 with
  | '.' :: r =>
    let fp := r.takeWhile Char.isDigit
    let cs3 := r.dropWhile Char.isDigit
    if ip.isEmpty && fp.isEmpty then none
    else
      match expFull cs3 with
      | none => none
      | some e => some (applyExp ((digitsToNat ip : ℚ) + (digitsToNat fp : ℚ) / 10 ^ fp.length) e)
  | _ =>
    if ip.isEmpty then none
    else
      match expFull cs2 with
      | none => none
      | some e => some (applyExp (digitsToNat ip : ℚ) e)

/-- JS `ToNumber` on a string (`StringToNumber`): trim whitespace; empty
means `0`; a `0x`/`0o`/`0b` radix literal (no sign allowed); otherwise an
optionally signed `Infinity` or full decimal literal; anything else is
`NaN`. -/
def strToNumber (s : String) : JsNum :=
  let cs := ((s.data.dropWhile isJsWS).reverse.dropWhile isJsWS).reverse
  match cs with
  | [] => .fin 0
  | '0' :: 'x' :: r => if !r.isEmpty && r.all isHexDigit then .fin (hexDigitsToNat r) else .nan
  | '0' :: 'X' :: r => if !r.isEmpty && r.all isHexDigit then .fin (hexDigitsToNat r) else .nan
  | '0' :: 'b' :: r => if !r.isEmpty && r.all (fun c => c == '0' || c == '1') then .fin (binDigitsToNat r) else .nan
  | '0' :: 'B' :: r => if !r.isEmpty && r.all (fun c => c == '0' || c == '1') then .fin (binDigitsToNat r) else .nan
  | '0' :: 'o' :: r => if !r.isEmpty && r.all (fun c => decide ('0' ≤ c) && decide (c ≤ '7')) then .fin (octDigitsToNat r) else .nan
  | '0' :: 'O' :: r => if !r.isEmpty && r.all (fun c => decide ('0' ≤ c) && decide (c ≤ '7')) then .fin (octDigitsToNat r) else .nan
  | _ =>
    let p : ℚ × List Char := match cs with
      | '+' :: t => ((1 : ℚ), t)
      | '-' :: t => ((-1 : ℚ), t)
      | t => ((1 : ℚ), t)
    if p.2 = "Infinity".data then (if p.1 < 0 then .negInf else .posInf)
    else
      match decFull p.2 with
      | some q => .fin (p.1 * q)
      | none => .nan

/-- JS `ToNumber` on an engine value (`null` is `+0`, `undefined` is
`NaN`). -/
def jsToNumber : JsVal → JsNum
  | .vnum n => n
  | .vnull => .fin 0
  | .vundef => .nan
  | .vstr s => strToNumber s

/-- IEEE addition on JS numbers (exact on finite values). -/
def jsNumAdd : JsNum → JsNum → JsNum
  | .nan, _ => .nan
  | _, .nan => .nan
  | .posInf, .negInf => .nan
  | .negInf, .posInf => .nan
  | .posInf, _ => .posInf
  | _, .posInf => .posInf
  | .negInf, _ => .negInf
  | _, .negInf => .negInf
  | .fin a, .fin b => .fin (a + b)

/-- IEEE subtraction on JS numbers (exact on finite values). -/
def jsNumSub : JsNum → JsNum → JsNum
  | .nan, _ => .nan
  | _, .nan => .nan
  | .posInf, .posInf => .nan
  | .negInf, .negInf => .nan
  | .posInf, _ => .posInf
  | _, .posInf => .negInf
  | .negInf, _ => .negInf
  | _, .negInf => .posInf
  | .fin a, .fin b => .fin (a - b)

/-- JS `+` on engine values: string concatenation when either operand is a
string, numeric addition otherwise. -/
def jsAdd (a b : JsVal) : JsVal :=
  match a, b with
  | .vstr s, _ => .vstr (s ++ jsToStr b)
  | _, .vstr t => .vstr (jsToStr a ++ t)
  | _, _ => .vnum (jsNumAdd (jsToNumber a) (jsToNumber b))

/-- JS `n > 0` on a number (`NaN > 0` is false). -/
def jsPos : JsNum → Bool
  | .fin q => 0 < q
  | .posInf => true
  | _ => false

/-- JS `Math.max` on two numbers (`NaN` propagates). -/
def jsMaxNum : JsNum → JsNum → JsNum
  | .nan, _ => .nan
  | _, .nan => .nan
  | .posInf, _ => .posInf
  | _, .posInf => .posInf
  | .negInf, b => b
  | a, .negInf => a
  | .fin a, .fin b => .fin (max a b)

/-- IEEE division on JS numbers (exact on finite values; division by zero
gives a signed infinity, `0 / 0` gives `NaN`; signed zeroes are not
distinguished). -/
def jsDiv : JsNum → JsNum → JsNum
  | .nan, _ => .nan
  | _, .nan => .nan
  | .posInf, .posInf => .nan
  | .posInf, .negInf => .nan
  | .negInf, .posInf => .nan
  | .negInf, .negInf => .nan
  | .posInf, .fin b => if b < 0 then .negInf else .posInf
  | .negInf, .fin b => if b < 0 then .posInf else .negInf
  | .fin _, .posInf => .fin 0
  | .fin _, .negInf => .fin 0
  | .fin a, .fin b =>
    if b = 0 then (if a = 0 then .nan else if 0 < a then .posInf else .negInf)
    else .fin (a / b)

/-! ### The record model and the engine -/

/-- A raw waste-diversion record as both screens read it from the
`waste_diversion_records` table (the source `Row` type,
`waste-diversion.tsx` lines 48-53).  `YEAR` and `MONTH` are the integer
reporting period (so the normalizer is the identity on them); `SCHOOL` may
be missing (`null`); the measurement fields are arbitrary values, possibly
comma-formatted text. -/
structure WasteRecord where
  YEAR : ℤ
  MONTH : ℤ
  DISTRICT : String
  SCHOOL : Option String
  ENROLLMENT : JsVal
  RECYCLE : JsVal
  COMPOST : JsVal
deriving DecidableEq

/-- JS template `${y}-${String(m).padStart(2, "0")}` padding step. -/
def padStart2 (s : String) : String :=
  if s.length < 2 then ⟨List.replicate (2 - s.length) '0' ++ s.data⟩ else s

/-- The period key builder `monthKey` (`waste-diversion.tsx` line 28). -/
def monthKey (y m : ℤ) : String :=
  intToStr y ++ "-" ++ padStart2 (intToStr m)

/-- JS `<` on strings: lexicographic by code unit (code point for the
basic-plane characters appearing in period keys). -/
def strLtB : List Char → List Char → Bool
  | [], [] => false
  | [], _ :: _ => true
  | _ :: _, [] => false
  | a :: as, b :: bs =>
    if a.toNat < b.toNat then true
    else if b.toNat < a.toNat then false
    else strLtB as bs

def strLt (a b : String) : Bool := strLtB a.data b.data

/-- Stable insertion step of a comparison-based sort: `x` goes in front of
the first element `y` with `le x y`. -/
def insertBy (le : α → α → Bool) (x : α) : List α → List α
  | [] => [x]
  | y :: ys => if le x y then x :: y :: ys else y :: insertBy le x ys

/-- Stable sort (insertion sort).  `Array.prototype.sort` is specified to
be stable; for a consistent comparator every stable sort computes the same
list, so this models the engine's two `sort` calls exactly. -/
def sortBy (le : α → α → Bool) : List α → List α
  | [] => []
  | x :: xs => insertBy le x (sortBy le xs)

/-- One monthly aggregate (an entry of the `monthly` map,
`waste-diversion.tsx` lines 195-212). -/
structure MonthlyAgg where
  key : String
  year : ℤ
  month : ℤ
  recycle : ℚ
  compost : ℚ
  diverted : ℚ
deriving DecidableEq

/-- One iteration of the `for (const r of schoolRows)` loop of the
`monthly` aggregation: insert a zeroed entry for an unseen period key, then
add the record's normalized amounts into that entry.  The list models the
insertion-ordered JS `Map`. -/
def aggStep (acc : List MonthlyAgg) (r : WasteRecord) : List MonthlyAgg :=
  let y := r.YEAR
  let m := r.MONTH
  let key := monthKey y m
  let recycle := num r.RECYCLE
  let compost := num r.COMPOST
  let diverted := recycle + compost
  let acc1 := if acc.any (fun a => a.key == key) then acc
              else acc ++ [⟨key, y, m, 0, 0, 0⟩]
  acc1.map (fun a =>
    if a.key == key then
      { a with recycle := a.recycle + recycle, compost := a.compost + compost,
               diverted := a.diverted + diverted }
    else a)

/-- The Monthly Aggregator (spec name `aggregateMonthly`; the `monthly`
memo of `waste-diversion.tsx` lines 195-212): group by period key in a map,
then sort the entries ascending by key (`(a < b ? -1 : 1)` on the key
strings; the keys are pairwise distinct, so any sort with that comparator
yields the strictly ascending order). -/
def aggregateMonthly (rs : List WasteRecord) : List MonthlyAgg :=
  sortBy (fun a b => strLt a.key b.key) (rs.foldl aggStep [])

/-- The `if (y > maxY || (y === maxY && m > maxM))` update of the latest
period search, seeded with `maxY = 0, maxM = 0` (lines 176-184). -/
def latestStep (p : ℤ × ℤ) (r : WasteRecord) : ℤ × ℤ :=
  if r.YEAR > p.1 ∨ (r.YEAR = p.1 ∧ r.MONTH > p.2) then (r.YEAR, r.MONTH) else p

/-- The Enrollment Resolver (spec name `resolveEnrollment`; the
`enrollment` memo of `waste-diversion.tsx` lines 173-193): find the latest
(year, month) by a fold seeded with `(0, 0)`, then take `Math.max` of the
normalized enrollments of the rows of exactly that period. -/
def resolveEnrollment (rs : List WasteRecord) : ℚ :=
  if rs.isEmpty then 0
  else
    let pm := rs.foldl latestStep (0, 0)
    let latest := rs.filter (fun r => r.YEAR == pm.1 && r.MONTH == pm.2)
    match latest.map (fun r => num r.ENROLLMENT) with
    | [] => 0
    | e :: es => es.foldl max e

/-- The KPI summary (the `kpis` memo of `waste-diversion.tsx` lines
216-222). -/
structure SchoolKPIs where
  totalRecycle : ℚ
  totalCompost : ℚ
  totalDiverted : ℚ
  perStudent : ℚ
  enrollment : ℚ
deriving DecidableEq

/-- The KPI Calculator (spec name `computeKPIs`): plain sums over the
aggregate list; per-student is guarded division. -/
def computeKPIs (monthly : List MonthlyAgg) (enrollment : ℚ) : SchoolKPIs :=
  let totalRecycle := monthly.foldl (fun s r => s + r.recycle) 0
  let totalCompost := monthly.foldl (fun s r => s + r.compost) 0
  let totalDiverted := totalRecycle + totalCompost
  let perStudent := if enrollment > 0 then totalDiverted / enrollment else 0
  ⟨totalRecycle, totalCompost, totalDiverted, perStudent, enrollment⟩

/-- One accumulated school entry of the leaderboard's `schoolStats` map
(`leaderboard.tsx` lines 61-78).  `diverted` accumulates with the raw JS
`+` (so it can become a string on dirty data); `enrollment` accumulates
with `Math.max` and is always a number. -/
structure SchoolStat where
  school : String
  diverted : JsVal
  enrollment : JsNum
  district : String
deriving DecidableEq

/-- One iteration of the `(data || []).forEach` loop of the leaderboard:
skip falsy school names; otherwise create the school's entry on first
sight and fold in `(RECYCLE || 0) + (COMPOST || 0)` and
`Math.max(enrollment, ENROLLMENT || 0)`. -/
def statStep (acc : List SchoolStat) (r : WasteRecord) : List SchoolStat :=
  match r.SCHOOL with
  | none => acc
  | some school =>
    if school = "" then acc
    else
      let diverted := jsAdd (jsOr r.RECYCLE (.vnum (.fin 0))) (jsOr r.COMPOST (.vnum (.fin 0)))
      let enrollment := jsOr r.ENROLLMENT (.vnum (.fin 0))
      let acc1 := if acc.any (fun st => st.school == school) then acc
                  else acc ++ [⟨school, .vnum (.fin 0), .fin 0, r.DISTRICT⟩]
      acc1.map (fun st =>
        if st.school == school then
          { st with diverted := jsAdd st.diverted diverted,
                    enrollment := jsMaxNum st.enrollment (jsToNumber enrollment) }
        else st)

/-- The leaderboard's per-school aggregation map, in insertion order. -/
def schoolStats (rs : List WasteRecord) : List SchoolStat :=
  rs.foldl statStep []

/-- A leaderboard entry (`leaderboard.tsx` lines 19-25).  `score` is a JS
number; `totalDiverted` is whatever the `diverted` accumulator holds. -/
structure LeaderboardEntry where
  rank : ℕ
  school : String
  district : String
  score : JsNum
  totalDiverted : JsVal
deriving DecidableEq

/-- Build the unranked entry of one school (`leaderboard.tsx` lines 82-92):
guarded division for the score, rank `0` until assignment. -/
def mkEntry (st : SchoolStat) : LeaderboardEntry :=
  ⟨0, st.school, st.district,
   if jsPos st.enrollment then jsDiv (jsToNumber st.diverted) st.enrollment else .fin 0,
   st.diverted⟩

/-- The entry list before sorting, in map insertion order. -/
def leaderboardEntries (rs : List WasteRecord) : List LeaderboardEntry :=
  (schoolStats rs).map mkEntry

/-- Keep-before relation of the sort comparator `(a, b) => b.score -
a.score`: `a` stays in front of `b` unless the comparator is positive
(ECMAScript treats a `NaN` comparator result as `0`). -/
def scoreKeep (a b : LeaderboardEntry) : Bool :=
  ! jsPos (jsNumSub b.score a.score)

/-- The `ranked.forEach((item, idx) => item.rank = idx + 1)` pass. -/
def assignRanks : ℕ → List LeaderboardEntry → List LeaderboardEntry
  | _, [] => []
  | i, e :: es => { e with rank := i + 1 } :: assignRanks (i + 1) es

/-- The Leaderboard Ranker (spec name `rankSchools`; `loadLeaderboard`,
`leaderboard.tsx` lines 61-100): aggregate per school, score, sort
descending by score, then assign ranks by sorted position. -/
def rankSchools (rs : List WasteRecord) : List LeaderboardEntry :=
  assignRanks 0 (sortBy scoreKeep (leaderboardEntries rs))

/-! ### Specification-side vocabulary

The following definitions phrase the spec's claims (groups, lexicographic
maxima, sums and maxima over a school's records); they are compared with
the engine definitions above, never used by them. -/

/-- Numeric (year, month) order used by the spec for "latest period". -/
def lexLe (p q : ℤ × ℤ) : Prop :=
  p.1 < q.1 ∨ (p.1 = q.1 ∧ p.2 ≤ q.2)

instance (p q : ℤ × ℤ) : Decidable (lexLe p q) := by
  unfold lexLe
  infer_instance

/-- The school key under which the leaderboard groups a record: its school
name when truthy, none for a missing or empty name. -/
def schoolKeyOf (r : WasteRecord) : Option String :=
  match r.SCHOOL with
  | none => none
  | some s => if s = "" then none else some s

/-- All records of one leaderboard school group (grouped by name alone,
across districts and periods). -/
def groupOf (s : String) (rs : List WasteRecord) : List WasteRecord :=
  rs.filter (fun r => schoolKeyOf r == some s)

/-- Sum of the normalized diverted amounts over a school group. -/
def gSum (s : String) (rs : List WasteRecord) : ℚ :=
  ((groupOf s rs).map (fun r => num r.RECYCLE + num r.COMPOST)).sum

/-- Maximum normalized enrollment over a school group, folded from a
starting value. -/
def gMaxFrom (e : ℚ) (s : String) (rs : List WasteRecord) : ℚ :=
  ((groupOf s rs).map (fun r => num r.ENROLLMENT)).foldl max e

/-- Values on which the raw leaderboard arithmetic agrees with the
normalizer: finite numbers, `NaN`, `null` and `undefined` (everything the
typed row schema allows), excluding strings and infinities. -/
def finiteLike : JsVal → Bool
  | .vnull => true
  | .vundef => true
  | .vnum (.fin _) => true
  | .vnum .nan => true
  | _ => false

/-- Lookup of a school's accumulated entry. -/
def findStat (s : String) (l : List SchoolStat) : Option SchoolStat :=
  l.find? (fun st => st.school == s)

/-! ### Lemmas about the stable sort -/

theorem insertBy_perm (le : α → α → Bool) (x : α) :
    ∀ l : List α, (insertBy le x l).Perm (x :: l) := by
  intro l
  induction l with
  | nil => simp [insertBy]
  | cons y ys ih =>
    simp only [insertBy]
    by_cases h : le x y
    · simp [h]
    · simp only [h, if_neg, Bool.false_eq_true, not_false_iff]
      exact (ih.cons y).trans (List.Perm.swap x y ys)

theorem sortBy_perm (le : α → α → Bool) :
    ∀ l : List α, (sortBy le l).Perm l := by
  intro l
  induction l with
  | nil => simp [sortBy]
  | cons x xs ih =>
    exact (insertBy_perm le x (sortBy le xs)).trans (ih.cons x)

theorem mem_sortBy {le : α → α → Bool} {l : List α} {a : α} :
    a ∈ sortBy le l ↔ a ∈ l :=
  (sortBy_perm le l).mem_iff

theorem mem_insertBy {le : α → α → Bool} {l : List α} {x a : α} :
    a ∈ insertBy le x l ↔ a = x ∨ a ∈ l := by
  rw [(insertBy_perm le x l).mem_iff, List.mem_cons]

theorem insertBy_pairwise {le : α → α → Bool} {R : α → α → Prop} {x : α} :
    ∀ {l : List α}, l.Pairwise R →
    (∀ y ∈ l, le x y = true → R x y) →
    (∀ y ∈ l, le x y = false → R y x) →
    (∀ y ∈ l, ∀ z ∈ l, R y z → le x y = true → R x z) →
    (insertBy le x l).Pairwise R := by
  intro l
  induction l with
  | nil => intro _ _ _ _; simp [insertBy]
  | cons y ys ih =>
    intro hl h1 h2 ht
    rw [List.pairwise_cons] at hl
    obtain ⟨hy, hys⟩ := hl
    simp only [insertBy]
    by_cases h : le x y
    · simp only [h, if_pos]
      refine List.Pairwise.cons ?_ (List.Pairwise.cons hy hys)
      intro z hz
      rcases List.mem_cons.mp hz with rfl | hz
      · exact h1 _ (List.mem_cons_self _ _) h
      · exact ht _ (List.mem_cons_self _ _) z (List.mem_cons_of_mem _ hz) (hy z hz) h
    · simp only [h, if_neg, Bool.false_eq_true, not_false_iff]
      refine List.Pairwise.cons ?_ ?_
      · intro w hw
        rcases mem_insertBy.mp hw with rfl | hw
        · exact h2 y (List.mem_cons_self y ys) (by simpa using h)
        · exact hy w hw
      · exact ih hys
          (fun z hz hle => h1 z (List.mem_cons_of_mem y hz) hle)
          (fun z hz hle => h2 z (List.mem_cons_of_mem y hz) hle)
          (fun z hz w hw hR hle =>
            ht z (List.mem_cons_of_mem y hz) w (List.mem_cons_of_mem y hw) hR hle)

theorem sortBy_pairwise {le : α → α → Bool} {R : α → α → Prop} :
    ∀ {l : List α},
    (∀ a ∈ l, ∀ b ∈ l, le a b = true → R a b) →
    (∀ a ∈ l, ∀ b ∈ l, le a b = false → R b a) →
    (∀ a ∈ l, ∀ b ∈ l, ∀ c ∈ l, R a b → R b c → R a c) →
    (sortBy le l).Pairwise R := by
  intro l
  induction l with
  | nil => intro _ _ _; simp [sortBy]
  | cons x xs ih =>
    intro himp hrev htr
    have hx : x ∈ x :: xs := List.mem_cons_self x xs
    have hmem : ∀ a, a ∈ sortBy le xs → a ∈ x :: xs :=
      fun a ha => List.mem_cons_of_mem x (mem_sortBy.mp ha)
    refine insertBy_pairwise ?_ ?_ ?_ ?_
    · exact ih
        (fun a ha b hb => himp a (List.mem_cons_of_mem x ha) b (List.mem_cons_of_mem x hb))
        (fun a ha b hb => hrev a (List.mem_cons_of_mem x ha) b (List.mem_cons_of_mem x hb))
        (fun a ha b hb c hc => htr a (List.mem_cons_of_mem x ha) b (List.mem_cons_of_mem x hb)
          c (List.mem_cons_of_mem x hc))
    · exact fun y hy => himp x hx y (hmem y hy)
    · exact fun y hy => hrev x hx y (hmem y hy)
    · exact fun y hy z hz hR hle =>
        htr x hx y (hmem y hy) z (hmem z hz) (himp x hx y (hmem y hy) hle) hR

theorem insertBy_filter_pos {le : α → α → Bool} {p : α → Bool} {x : α}
    (hx : p x = true) :
    ∀ {l : List α}, (∀ y ∈ l, p y = true → le x y = true) →
    (insertBy le x l).filter p = x :: l.filter p := by
  intro l
  induction l with
  | nil => intro _; simp [insertBy, hx]
  | cons y ys ih =>
    intro hb
    simp only [insertBy]
    by_cases h : le x y
    · simp [h, List.filter_cons, hx]
    · have hy : p y = false := by
        by_contra hpy
        exact h (hb y (List.mem_cons_self y ys) (eq_true_of_ne_false hpy))
      simp only [h, if_neg, Bool.false_eq_true, not_false_iff, List.filter_cons, hy]
      simpa [hy] using ih (fun z hz hp => hb z (List.mem_cons_of_mem y hz) hp)

theorem insertBy_filter_neg {le : α → α → Bool} {p : α → Bool} {x : α}
    (hx : p x = false) :
    ∀ l : List α, (insertBy le x l).filter p = l.filter p := by
  intro l
  induction l with
  | nil => simp [insertBy, hx]
  | cons y ys ih =>
    simp only [insertBy]
    by_cases h : le x y
    · simp [h, List.filter_cons, hx]
    · simp only [h, if_neg, Bool.false_eq_true, not_false_iff, List.filter_cons]
      by_cases hy : p y <;> simp [hy, ih]

theorem sortBy_filter {le : α → α → Bool} {p : α → Bool} :
    ∀ {l : List α}, (∀ a ∈ l, ∀ b ∈ l, p a = true → p b = true → le a b = true) →
    (sortBy le l).filter p = l.filter p := by
  intro l
  induction l with
  | nil => intro _; simp [sortBy]
  | cons x xs ih =>
    intro h
    have htail : (sortBy le xs).filter p = xs.filter p :=
      ih (fun a ha b hb => h a (List.mem_cons_of_mem x ha) b (List.mem_cons_of_mem x hb))
    simp only [sortBy]
    by_cases hx : p x
    · have hb : ∀ y ∈ sortBy le xs, p y = true → le x y = true := fun y hy hpy =>
        h x (List.mem_cons_self x xs) y (List.mem_cons_of_mem x (mem_sortBy.mp hy)) hx hpy
      rw [insertBy_filter_pos hx hb, htail, List.filter_cons]
      simp [hx]
    · rw [insertBy_filter_neg (Bool.eq_false_iff.mpr hx), htail, List.filter_cons]
      simp [Bool.eq_false_iff.mpr hx]

/-! ### Facts about the string order -/

theorem strLtB_trans : ∀ a b c : List Char,
    strLtB a b = true → strLtB b c = true → strLtB a c = true := by
  intro a
  induction a with
  | nil =>
    intro b c hab hbc
    cases b with
    | nil => simp [strLtB] at hab
    | cons y ys =>
      cases c with
      | nil => simp [strLtB] at hbc
      | cons z zs => simp [strLtB]
  | cons x xs ih =>
    intro b c hab hbc
    cases b with
    | nil => simp [strLtB] at hab
    | cons y ys =>
      cases c with
      | nil => simp [strLtB] at hbc
      | cons z zs =>
        simp only [strLtB] at hab hbc ⊢
        by_cases h1 : x.toNat < y.toNat
        · by_cases h2 : y.toNat < z.toNat
          · simp [show x.toNat < z.toNat from by omega]
          · by_cases h3 : z.toNat < y.toNat
            · rw [if_neg h2, if_pos h3] at hbc
              exact absurd hbc (by simp)
            · simp [show x.toNat < z.toNat from by omega]
        · by_cases h2 : y.toNat < x.toNat
          · rw [if_neg h1, if_pos h2] at hab
            exact absurd hab (by simp)
          · rw [if_neg h1, if_neg h2] at hab
            by_cases h3 : y.toNat < z.toNat
            · simp [show x.toNat < z.toNat from by omega]
            · by_cases h4 : z.toNat < y.toNat
              · rw [if_neg h3, if_pos h4] at hbc
                exact absurd hbc (by simp)
              · rw [if_neg h3, if_neg h4] at hbc
                rw [if_neg (show ¬ x.toNat < z.toNat from by omega),
                    if_neg (show ¬ z.toNat < x.toNat from by omega)]
                exact ih ys zs hab hbc

theorem strLtB_connex : ∀ a b : List Char,
    strLtB a b = false → strLtB b a = true ∨ a = b := by
  intro a
  induction a with
  | nil =>
    intro b hab
    cases b with
    | nil => right; rfl
    | cons y ys => simp [strLtB] at hab
  | cons x xs ih =>
    intro b hab
    cases b with
    | nil => left; rfl
    | cons y ys =>
      simp only [strLtB] at hab ⊢
      by_cases h1 : x.toNat < y.toNat
      · rw [if_pos h1] at hab
        exact absurd hab (by simp)
      · by_cases h2 : y.toNat < x.toNat
        · left
          rw [if_pos h2]
        · rw [if_neg h1, if_neg h2] at hab
          have h3 : x.toNat = y.toNat := by omega
          have hxy : x = y := Char.ext (UInt32.toNat.inj h3)
          rcases ih ys hab with h | h
          · left
            rw [if_neg (by omega), if_neg (by omega)]
            exact h
          · right
            rw [hxy, h]
theorem strLt_trans {a b c : String} (hab : strLt a b = true) (hbc : strLt b c = true) :
    strLt a c = true :=
  strLtB_trans a.data b.data c.data hab hbc

theorem strLt_connex {a b : String} (hab : strLt a b = false) :
    strLt b a = true ∨ a = b := by
  rcases strLtB_connex a.data b.data hab with h | h
  · exact Or.inl h
  · right
    cases a
    cases b
    exact congrArg String.mk h

/-! ### Decimal printing is injective -/

theorem charsVal_append (xs : List Char) (ch : Char) :
    digitsToNat (xs ++ [ch]) = 10 * digitsToNat xs + (ch.toNat - 48) := by
  simp [digitsToNat, List.foldl_append]

theorem digitChar_toNat : ∀ d : ℕ, d < 10 → (digitChar d).toNat = 48 + d := by
  decide

theorem natToChars_val : ∀ fuel n : ℕ, n ≤ fuel → digitsToNat (natToChars fuel n) = n := by
  intro fuel
  induction fuel with
  | zero =>
    intro n hn
    interval_cases n
    simp [natToChars, digitsToNat]
  | succ fuel ih =>
    intro n hn
    by_cases h0 : n = 0
    · simp [natToChars, h0, digitsToNat]
    · have hdiv : n / 10 ≤ fuel := by omega
      simp only [natToChars, h0, if_neg, not_false_iff]
      rw [charsVal_append, ih _ hdiv, digitChar_toNat _ (Nat.mod_lt n (by omega))]
      omega

theorem natToStr_val (n : ℕ) : digitsToNat (natToStr n).data = n := by
  by_cases h0 : n = 0
  · simp [natToStr, h0, digitsToNat]
  · simp only [natToStr, h0, if_neg, not_false_iff]
    exact natToChars_val n n le_rfl

theorem natToStr_inj {a b : ℕ} (h : natToStr a = natToStr b) : a = b := by
  have := congrArg (fun s => digitsToNat s.data) h
  simpa [natToStr_val] using this

theorem natToChars_digits : ∀ fuel n : ℕ, ∀ c ∈ natToChars fuel n,
    48 ≤ c.toNat ∧ c.toNat ≤ 57 := by
  intro fuel
  induction fuel with
  | zero => intro n c hc; simp [natToChars] at hc
  | succ fuel ih =>
    intro n c hc
    by_cases h0 : n = 0
    · simp [natToChars, h0] at hc
    · simp only [natToChars, h0, if_neg, not_false_iff, List.mem_append,
        List.mem_singleton] at hc
      rcases hc with hc | rfl
      · exact ih _ c hc
      · have : (digitChar (n % 10)).toNat = 48 + n % 10 :=
          digitChar_toNat _ (Nat.mod_lt n (by omega))
        constructor <;> omega

theorem natToStr_head_digit (n : ℕ) : ∀ c ∈ (natToStr n).data, 48 ≤ c.toNat ∧ c.toNat ≤ 57 := by
  intro c hc
  by_cases h0 : n = 0
  · simp [natToStr, h0] at hc
    subst hc
    decide
  · simp only [natToStr, h0, if_neg, not_false_iff] at hc
    exact natToChars_digits n n c hc

theorem str_ext {s t : String} (h : s.data = t.data) : s = t := by
  cases s
  cases t
  exact congrArg String.mk h

theorem str_data_append (s t : String) : (s ++ t).data = s.data ++ t.data := rfl

/-- Integer value read back off a printed integer (left inverse of
`intToStr`). -/
def strIntVal (s : String) : ℤ :=
  if s.data.head? = some '-' then -(digitsToNat s.data.tail : ℤ)
  else (digitsToNat s.data : ℤ)

theorem strIntVal_intToStr (i : ℤ) : strIntVal (intToStr i) = i := by
  by_cases h : i < 0
  · have hdata : (intToStr i).data = '-' :: (natToStr i.natAbs).data := by
      simp only [intToStr, if_pos h]
      rfl
    simp only [strIntVal, hdata, List.head?, List.tail_cons, if_pos]
    rw [natToStr_val]
    omega
  · have hhead : ¬ (natToStr i.toNat).data.head? = some '-' := by
      cases hd : (natToStr i.toNat).data with
      | nil => simp
      | cons ch cs =>
        have hdig := natToStr_head_digit i.toNat ch (hd ▸ List.mem_cons_self ch cs)
        simp only [List.head?]
        intro hcontr
        have hch : ch = '-' := by injection hcontr
        rw [hch] at hdig
        revert hdig
        decide
    simp only [strIntVal, intToStr, if_neg h]
    rw [if_neg hhead, natToStr_val]
    omega

theorem intToStr_inj {a b : ℤ} (h : intToStr a = intToStr b) : a = b := by
  have h2 := congrArg strIntVal h
  rwa [strIntVal_intToStr, strIntVal_intToStr] at h2

theorem intToStr_nonneg (m : ℤ) (h : ¬ m < 0) : intToStr m = natToStr m.toNat := by
  simp [intToStr, h]

theorem pad2_len : ∀ n : ℕ, n < 13 → 1 ≤ n → (padStart2 (natToStr n)).data.length = 2 := by
  decide

theorem pad2_inj : ∀ n : ℕ, n < 13 → ∀ k : ℕ, k < 13 → 1 ≤ n → 1 ≤ k →
    padStart2 (natToStr n) = padStart2 (natToStr k) → n = k := by
  decide

/-- On the data model's month range the period key determines the (year,
month) pair. -/
theorem monthKey_inj {y1 m1 y2 m2 : ℤ}
    (h1a : 1 ≤ m1) (h1b : m1 ≤ 12) (h2a : 1 ≤ m2) (h2b : m2 ≤ 12)
    (h : monthKey y1 m1 = monthKey y2 m2) : y1 = y2 ∧ m1 = m2 := by
  have e1 : intToStr m1 = natToStr m1.toNat := intToStr_nonneg _ (by omega)
  have e2 : intToStr m2 = natToStr m2.toNat := intToStr_nonneg _ (by omega)
  have hlen1 : (padStart2 (intToStr m1)).data.length = 2 := by
    rw [e1]; exact pad2_len m1.toNat (by omega) (by omega)
  have hlen2 : (padStart2 (intToStr m2)).data.length = 2 := by
    rw [e2]; exact pad2_len m2.toNat (by omega) (by omega)
  have hdata : (intToStr y1).data ++ ('-' :: (padStart2 (intToStr m1)).data)
             = (intToStr y2).data ++ ('-' :: (padStart2 (intToStr m2)).data) := by
    have h0 := congrArg String.data h
    simpa [monthKey, str_data_append] using h0
  have hsplit := List.append_inj' hdata (by simp [hlen1, hlen2])
  constructor
  · exact intToStr_inj (str_ext hsplit.1)
  · have htails : (padStart2 (intToStr m1)).data = (padStart2 (intToStr m2)).data := by
      have := hsplit.2
      injection this
    have hpad : padStart2 (natToStr m1.toNat) = padStart2 (natToStr m2.toNat) := by
      rw [← e1, ← e2]
      exact str_ext htails
    have := pad2_inj m1.toNat (by omega) m2.toNat (by omega) (by omega) (by omega) hpad
    omega
/-! ### Invariants of the monthly aggregation fold -/

theorem aggUpd_key (a : MonthlyAgg) (k : String) (rec com div : ℚ) :
    ((if a.key == k then
        { a with recycle := a.recycle + rec, compost := a.compost + com,
                 diverted := a.diverted + div }
      else a) : MonthlyAgg).key = a.key := by
  split <;> rfl

theorem map_key_of_preserved {f : MonthlyAgg → MonthlyAgg} (hf : ∀ a, (f a).key = a.key) :
    ∀ l : List MonthlyAgg, (l.map f).map MonthlyAgg.key = l.map MonthlyAgg.key := by
  intro l
  induction l with
  | nil => rfl
  | cons b bs ih => simp only [List.map_cons, hf, ih]

theorem aggStep_map_key (acc : List MonthlyAgg) (r : WasteRecord) :
    (aggStep acc r).map MonthlyAgg.key =
      if acc.any (fun a => a.key == monthKey r.YEAR r.MONTH) then acc.map MonthlyAgg.key
      else acc.map MonthlyAgg.key ++ [monthKey r.YEAR r.MONTH] := by
  have hf : ∀ a : MonthlyAgg,
      ((fun a => if a.key == monthKey r.YEAR r.MONTH then
          { a with recycle := a.recycle + num r.RECYCLE,
                   compost := a.compost + num r.COMPOST,
                   diverted := a.diverted + (num r.RECYCLE + num r.COMPOST) }
        else a) a).key = a.key := by
    intro a
    exact aggUpd_key a _ _ _ _
  simp only [aggStep]
  by_cases h : acc.any (fun a => a.key == monthKey r.YEAR r.MONTH)
  · rw [if_pos h, if_pos h, map_key_of_preserved hf]
  · rw [if_neg h, if_neg h, map_key_of_preserved hf, List.map_append]
    rfl

theorem aggStep_map_key_sub (acc : List MonthlyAgg) (r : WasteRecord) :
    ∀ k ∈ acc.map MonthlyAgg.key, k ∈ (aggStep acc r).map MonthlyAgg.key := by
  intro k hk
  rw [aggStep_map_key]
  split <;> simp [hk]

theorem aggStep_key_mem (acc : List MonthlyAgg) (r : WasteRecord) :
    monthKey r.YEAR r.MONTH ∈ (aggStep acc r).map MonthlyAgg.key := by
  rw [aggStep_map_key]
  by_cases h : acc.any (fun a => a.key == monthKey r.YEAR r.MONTH)
  · rw [if_pos h]
    rcases List.any_eq_true.mp h with ⟨a, ha, hak⟩
    exact List.mem_map.mpr ⟨a, ha, (beq_iff_eq.mp hak)⟩
  · rw [if_neg h]
    simp

theorem foldl_aggStep_nodup : ∀ (rs : List WasteRecord) (acc : List MonthlyAgg),
    (acc.map MonthlyAgg.key).Nodup → ((rs.foldl aggStep acc).map MonthlyAgg.key).Nodup := by
  intro rs
  induction rs with
  | nil => intro acc h; simpa using h
  | cons r rs ih =>
    intro acc h
    rw [List.foldl_cons]
    refine ih _ ?_
    rw [aggStep_map_key]
    by_cases hb : acc.any (fun a => a.key == monthKey r.YEAR r.MONTH)
    · rw [if_pos hb]; exact h
    · rw [if_neg hb]
      have hnot : monthKey r.YEAR r.MONTH ∉ acc.map MonthlyAgg.key := by
        intro hmem
        rcases List.mem_map.mp hmem with ⟨a, ha, hak⟩
        exact hb (List.any_eq_true.mpr ⟨a, ha, beq_iff_eq.mpr hak⟩)
      simp [List.nodup_append, h, hnot]

theorem aggStep_elem (acc : List MonthlyAgg) (r : WasteRecord) :
    ∀ a ∈ aggStep acc r,
      (∃ b ∈ acc, a.key = b.key ∧ a.year = b.year ∧ a.month = b.month) ∨
      (a.key = monthKey r.YEAR r.MONTH ∧ a.year = r.YEAR ∧ a.month = r.MONTH) := by
  intro a ha
  simp only [aggStep] at ha
  rcases List.mem_map.mp ha with ⟨b, hb, rfl⟩
  have hkey : ∀ (x : MonthlyAgg),
      ((if x.key == monthKey r.YEAR r.MONTH then
          { x with recycle := x.recycle + num r.RECYCLE,
                   compost := x.compost + num r.COMPOST,
                   diverted := x.diverted + (num r.RECYCLE + num r.COMPOST) }
        else x) : MonthlyAgg).key = x.key ∧
      ((if x.key == monthKey r.YEAR r.MONTH then
          { x with recycle := x.recycle + num r.RECYCLE,
                   compost := x.compost + num r.COMPOST,
                   diverted := x.diverted + (num r.RECYCLE + num r.COMPOST) }
        else x) : MonthlyAgg).year = x.year ∧
      ((if x.key == monthKey r.YEAR r.MONTH then
          { x with recycle := x.recycle + num r.RECYCLE,
                   compost := x.compost + num r.COMPOST,
                   diverted := x.diverted + (num r.RECYCLE + num r.COMPOST) }
        else x) : MonthlyAgg).month = x.month := by
    intro x
    split <;> exact ⟨rfl, rfl, rfl⟩
  by_cases hany : acc.any (fun a => a.key == monthKey r.YEAR r.MONTH)
  · rw [if_pos hany] at hb
    exact Or.inl ⟨b, hb, (hkey b).1, (hkey b).2.1, (hkey b).2.2⟩
  · rw [if_neg hany] at hb
    rcases List.mem_append.mp hb with hb | hb
    · exact Or.inl ⟨b, hb, (hkey b).1, (hkey b).2.1, (hkey b).2.2⟩
    · rcases List.mem_singleton.mp hb with rfl
      exact Or.inr ⟨(hkey _).1, (hkey _).2.1, (hkey _).2.2⟩

theorem foldl_aggStep_elem : ∀ (rs : List WasteRecord) (acc : List MonthlyAgg),
    ∀ a ∈ rs.foldl aggStep acc,
      (∃ b ∈ acc, a.key = b.key ∧ a.year = b.year ∧ a.month = b.month) ∨
      (∃ r ∈ rs, a.key = monthKey r.YEAR r.MONTH ∧ a.year = r.YEAR ∧ a.month = r.MONTH) := by
  intro rs
  induction rs with
  | nil => intro acc a ha; exact Or.inl ⟨a, ha, rfl, rfl, rfl⟩
  | cons r rs ih =>
    intro acc a ha
    rw [List.foldl_cons] at ha
    rcases ih (aggStep acc r) a ha with ⟨b, hb, h1, h2, h3⟩ | ⟨r', hr', h1, h2, h3⟩
    · rcases aggStep_elem acc r b hb with ⟨d, hd, g1, g2, g3⟩ | ⟨g1, g2, g3⟩
      · exact Or.inl ⟨d, hd, h1.trans g1, h2.trans g2, h3.trans g3⟩
      · exact Or.inr ⟨r, List.mem_cons_self r rs, h1.trans g1, h2.trans g2, h3.trans g3⟩
    · exact Or.inr ⟨r', List.mem_cons_of_mem r hr', h1, h2, h3⟩

theorem foldl_aggStep_cover : ∀ (rs : List WasteRecord) (acc : List MonthlyAgg),
    ∀ r ∈ rs, monthKey r.YEAR r.MONTH ∈ (rs.foldl aggStep acc).map MonthlyAgg.key := by
  intro rs
  induction rs with
  | nil => intro acc r hr; simp at hr
  | cons r0 rs ih =>
    intro acc r hr
    rw [List.foldl_cons]
    rcases List.mem_cons.mp hr with rfl | hr
    · -- key already present after the first step; keys only grow along the fold
      have h0 := aggStep_key_mem acc r
      clear ih hr
      generalize aggStep acc r = acc1 at h0 ⊢
      induction rs generalizing acc1 with
      | nil => simpa using h0
      | cons r1 rs1 ih1 =>
        rw [List.foldl_cons]
        exact ih1 _ (aggStep_map_key_sub acc1 r1 _ h0)
    · exact ih _ r hr

theorem foldl_aggStep_additive : ∀ (rs : List WasteRecord) (acc : List MonthlyAgg),
    (∀ a ∈ acc, a.diverted = a.recycle + a.compost) →
    ∀ a ∈ rs.foldl aggStep acc, a.diverted = a.recycle + a.compost := by
  intro rs
  induction rs with
  | nil => intro acc h; simpa using h
  | cons r rs ih =>
    intro acc h
    rw [List.foldl_cons]
    refine ih _ ?_
    intro a ha
    simp only [aggStep] at ha
    rcases List.mem_map.mp ha with ⟨b, hb, rfl⟩
    have hbacc : b.diverted = b.recycle + b.compost := by
      by_cases hany : acc.any (fun a => a.key == monthKey r.YEAR r.MONTH)
      · rw [if_pos hany] at hb
        exact h b hb
      · rw [if_neg hany] at hb
        rcases List.mem_append.mp hb with hb | hb
        · exact h b hb
        · rcases List.mem_singleton.mp hb with rfl
          norm_num
    split
    · simp only []
      rw [hbacc]
      ring
    · exact hbacc
theorem aggregateMonthly_sorted_keys (rs : List WasteRecord) :
    (aggregateMonthly rs).Pairwise (fun a b => strLt a.key b.key = true) := by
  have hnd : ((rs.foldl aggStep []).map MonthlyAgg.key).Nodup :=
    foldl_aggStep_nodup rs [] (by simp)
  have hpw : (aggregateMonthly rs).Pairwise
      (fun a b => strLt a.key b.key = true ∨ a.key = b.key) := by
    refine sortBy_pairwise ?_ ?_ ?_
    · intro a _ b _ hle
      exact Or.inl hle
    · intro a _ b _ hle
      rcases strLt_connex hle with h | h
      · exact Or.inl h
      · exact Or.inr h.symm
    · intro a _ b _ c _ hab hbc
      rcases hab with hab | hab
      · rcases hbc with hbc | hbc
        · exact Or.inl (strLt_trans hab hbc)
        · exact Or.inl (hbc ▸ hab)
      · rcases hbc with hbc | hbc
        · exact Or.inl (hab ▸ hbc)
        · exact Or.inr (hab.trans hbc)
  have hperm := (sortBy_perm (fun a b => strLt a.key b.key) (rs.foldl aggStep [])).map
    MonthlyAgg.key
  have hnd2 : ((aggregateMonthly rs).map MonthlyAgg.key).Nodup := hperm.nodup_iff.mpr hnd
  have hne : (aggregateMonthly rs).Pairwise (fun a b => a.key ≠ b.key) :=
    List.pairwise_map.mp hnd2
  exact (hpw.and hne).imp (fun h => by
    rcases h with ⟨hab | hab, hne2⟩
    · exact hab
    · exact absurd hab hne2)
/-! ### Lemmas for the enrollment resolver -/

theorem lexLe_refl (p : ℤ × ℤ) : lexLe p p := by
  simp [lexLe]

theorem lexLe_trans {p q s : ℤ × ℤ} (h1 : lexLe p q) (h2 : lexLe q s) : lexLe p s := by
  simp only [lexLe] at h1 h2 ⊢
  omega

theorem lexLe_antisymm {p q : ℤ × ℤ} (h1 : lexLe p q) (h2 : lexLe q p) : p = q := by
  simp only [lexLe] at h1 h2
  have e1 : p.1 = q.1 := by omega
  have e2 : p.2 = q.2 := by omega
  exact Prod.ext e1 e2

theorem latestStep_ge_acc (p : ℤ × ℤ) (r : WasteRecord) : lexLe p (latestStep p r) := by
  simp only [latestStep, lexLe]
  split <;> simp_all <;> omega

theorem latestStep_ge_rec (p : ℤ × ℤ) (r : WasteRecord) :
    lexLe (r.YEAR, r.MONTH) (latestStep p r) := by
  simp only [latestStep, lexLe]
  split <;> simp_all <;> omega

theorem latestStep_cases (p : ℤ × ℤ) (r : WasteRecord) :
    latestStep p r = p ∨ latestStep p r = (r.YEAR, r.MONTH) := by
  simp only [latestStep]
  split
  · exact Or.inr rfl
  · exact Or.inl rfl

theorem foldl_latestStep_spec : ∀ (rs : List WasteRecord) (acc : ℤ × ℤ),
    (rs.foldl latestStep acc = acc ∨
      ∃ r ∈ rs, rs.foldl latestStep acc = (r.YEAR, r.MONTH))
    ∧ lexLe acc (rs.foldl latestStep acc)
    ∧ ∀ r ∈ rs, lexLe (r.YEAR, r.MONTH) (rs.foldl latestStep acc) := by
  intro rs
  induction rs with
  | nil =>
    intro acc
    refine ⟨Or.inl rfl, lexLe_refl acc, ?_⟩
    intro r hr
    simp at hr
  | cons r0 rs ih =>
    intro acc
    rw [List.foldl_cons]
    obtain ⟨hmem, hacc, hall⟩ := ih (latestStep acc r0)
    refine ⟨?_, lexLe_trans (latestStep_ge_acc acc r0) hacc, ?_⟩
    · rcases hmem with hmem | ⟨r, hr, hmem⟩
      · rcases latestStep_cases acc r0 with hc | hc
        · exact Or.inl (hmem.trans hc)
        · exact Or.inr ⟨r0, List.mem_cons_self r0 rs, hmem.trans hc⟩
      · exact Or.inr ⟨r, List.mem_cons_of_mem r0 hr, hmem⟩
    · intro r hr
      rcases List.mem_cons.mp hr with rfl | hr
      · exact lexLe_trans (latestStep_ge_rec acc r) hacc
      · exact hall r hr

theorem foldl_max_init : ∀ (l : List ℚ) (a : ℚ), a ≤ l.foldl max a := by
  intro l
  induction l with
  | nil => intro a; simp
  | cons x xs ih =>
    intro a
    rw [List.foldl_cons]
    exact le_trans (le_max_left a x) (ih (max a x))

theorem foldl_max_le : ∀ (l : List ℚ) (a x : ℚ), x ∈ l → x ≤ l.foldl max a := by
  intro l
  induction l with
  | nil => intro a x hx; simp at hx
  | cons y ys ih =>
    intro a x hx
    rw [List.foldl_cons]
    rcases List.mem_cons.mp hx with rfl | hx
    · exact le_trans (le_max_right a x) (foldl_max_init ys (max a x))
    · exact ih (max a y) x hx

theorem foldl_max_mem : ∀ (l : List ℚ) (a : ℚ), l.foldl max a = a ∨ l.foldl max a ∈ l := by
  intro l
  induction l with
  | nil => intro a; exact Or.inl rfl
  | cons x xs ih =>
    intro a
    rw [List.foldl_cons]
    rcases ih (max a x) with h | h
    · rcases le_total a x with hax | hax
      · right
        rw [h, max_eq_right hax]
        exact List.mem_cons_self x xs
      · left
        rw [h, max_eq_left hax]
    · exact Or.inr (List.mem_cons_of_mem x h)
/-! ### The raw leaderboard arithmetic agrees with the normalizer on
numeric values -/

theorem num_vnum_fin (q : ℚ) : num (.vnum (.fin q)) = q := rfl

theorem num_vnum_nan : num (.vnum .nan) = 0 := rfl

theorem num_vnull : num .vnull = 0 := rfl

theorem num_vundef : num .vundef = 0 := rfl

theorem jsAdd_fin (a b : ℚ) :
    jsAdd (.vnum (.fin a)) (.vnum (.fin b)) = .vnum (.fin (a + b)) := rfl

theorem jsOr_zero_collapse {v : JsVal} (h : finiteLike v = true) :
    jsOr v (.vnum (.fin 0)) = .vnum (.fin (num v)) := by
  cases v with
  | vnum n =>
    cases n with
    | fin q =>
      by_cases h0 : q = 0
      · simp [jsOr, truthy, h0, num_vnum_fin]
      · simp [jsOr, truthy, h0, num_vnum_fin]
    | nan => rfl
    | posInf => simp [finiteLike] at h
    | negInf => simp [finiteLike] at h
  | vstr s => simp [finiteLike] at h
  | vnull => rfl
  | vundef => rfl

theorem divertedVal_collapse {a b : JsVal} (ha : finiteLike a = true)
    (hb : finiteLike b = true) :
    jsAdd (jsOr a (.vnum (.fin 0))) (jsOr b (.vnum (.fin 0))) =
      .vnum (.fin (num a + num b)) := by
  rw [jsOr_zero_collapse ha, jsOr_zero_collapse hb, jsAdd_fin]

theorem enrollVal_collapse {e : JsVal} (he : finiteLike e = true) :
    jsToNumber (jsOr e (.vnum (.fin 0))) = .fin (num e) := by
  rw [jsOr_zero_collapse he]
  rfl

theorem jsMaxNum_fin (a b : ℚ) : jsMaxNum (.fin a) (.fin b) = .fin (max a b) := rfl

/-! ### Lookup lemmas for the school map -/

theorem findStat_map {u : SchoolStat → SchoolStat} (hu : ∀ st, (u st).school = st.school)
    (s : String) : ∀ l : List SchoolStat, findStat s (l.map u) = (findStat s l).map u := by
  intro l
  induction l with
  | nil => rfl
  | cons st l ih =>
    simp only [findStat, List.map_cons, List.find?]
    rw [hu st]
    by_cases h : st.school == s
    · rw [h]
      rfl
    · rw [Bool.not_eq_true] at h
      rw [h]
      exact ih

theorem findStat_append_single (s : String) (st0 : SchoolStat) :
    ∀ l : List SchoolStat, findStat s (l ++ [st0]) =
      match findStat s l with
      | some st => some st
      | none => if st0.school == s then some st0 else none := by
  intro l
  induction l with
  | nil =>
    simp only [List.nil_append, findStat, List.find?]
    split <;> simp_all
  | cons st l ih =>
    simp only [findStat, List.cons_append, List.find?] at ih ⊢
    by_cases h : st.school == s
    · rw [h]
    · rw [Bool.not_eq_true] at h
      rw [h]
      exact ih

theorem findStat_isSome_iff_any (s : String) (l : List SchoolStat) :
    (l.any fun st => st.school == s) = true ↔ ∃ st, findStat s l = some st := by
  simp only [findStat]
  rw [List.any_eq_true]
  constructor
  · rintro ⟨st, hst, hs⟩
    exact Option.isSome_iff_exists.mp (List.find?_isSome.mpr ⟨st, hst, hs⟩)
  · rintro ⟨st, hst⟩
    have h2 := List.find?_some hst
    exact ⟨st, List.mem_of_find?_eq_some hst, h2⟩

theorem findStat_some_school {s : String} {l : List SchoolStat} {st : SchoolStat}
    (h : findStat s l = some st) : st.school = s ∧ st ∈ l := by
  simp only [findStat] at h
  have h2 := List.find?_some h
  exact ⟨beq_iff_eq.mp h2, List.mem_of_find?_eq_some h⟩
/-! ### The leaderboard accumulation fold -/

/-- The update applied to every map entry on one leaderboard iteration for
the record's (truthy) school name. -/
def statUpd (r : WasteRecord) (sc : String) (st : SchoolStat) : SchoolStat :=
  if st.school == sc then
    { st with
      diverted := jsAdd st.diverted
        (jsAdd (jsOr r.RECYCLE (.vnum (.fin 0))) (jsOr r.COMPOST (.vnum (.fin 0)))),
      enrollment := jsMaxNum st.enrollment (jsToNumber (jsOr r.ENROLLMENT (.vnum (.fin 0)))) }
  else st

theorem statUpd_school (r : WasteRecord) (sc : String) (st : SchoolStat) :
    (statUpd r sc st).school = st.school := by
  simp only [statUpd]
  split <;> rfl

theorem schoolKeyOf_some {r : WasteRecord} {sc : String}
    (h : schoolKeyOf r = some sc) : r.SCHOOL = some sc ∧ sc ≠ "" := by
  cases hS : r.SCHOOL with
  | none => simp [schoolKeyOf, hS] at h
  | some s =>
    simp only [schoolKeyOf, hS] at h
    by_cases hs : s = ""
    · rw [if_pos hs] at h; cases h
    · rw [if_neg hs] at h
      injection h with h
      subst h
      exact ⟨rfl, hs⟩

theorem statStep_none {acc : List SchoolStat} {r : WasteRecord}
    (h : schoolKeyOf r = none) : statStep acc r = acc := by
  cases hS : r.SCHOOL with
  | none => simp only [statStep, hS]
  | some s =>
    simp only [schoolKeyOf, hS] at h
    by_cases hs : s = ""
    · simp only [statStep, hS, if_pos hs]
    · rw [if_neg hs] at h
      cases h

theorem statStep_eq {acc : List SchoolStat} {r : WasteRecord} {sc : String}
    (h : schoolKeyOf r = some sc) :
    statStep acc r =
      (if acc.any (fun st => st.school == sc) then acc
       else acc ++ [⟨sc, .vnum (.fin 0), .fin 0, r.DISTRICT⟩]).map (statUpd r sc) := by
  obtain ⟨hS, hne⟩ := schoolKeyOf_some h
  simp only [statStep, hS]
  rw [if_neg hne]
  rfl

theorem findStat_statStep_other {acc : List SchoolStat} {r : WasteRecord}
    {s sc : String} (hk : schoolKeyOf r = some sc) (hss : s ≠ sc) :
    findStat s (statStep acc r) = findStat s acc := by
  rw [statStep_eq hk, findStat_map (statUpd_school r sc)]
  have hupd : ∀ st : SchoolStat, st.school = s → statUpd r sc st = st := by
    intro st hst
    simp only [statUpd]
    rw [if_neg]
    simp [hst, hss]
  by_cases hany : acc.any (fun st => st.school == sc)
  · rw [if_pos hany]
    cases hf : findStat s acc with
    | none => rfl
    | some st =>
      have hsch := (findStat_some_school hf).1
      simp [hupd st hsch]
  · rw [if_neg hany, findStat_append_single]
    cases hf : findStat s acc with
    | none =>
      have : ¬ ((⟨sc, .vnum (.fin 0), .fin 0, r.DISTRICT⟩ : SchoolStat).school == s) := by
        simp
        exact fun hcon => hss hcon.symm
      simp only []
      rw [if_neg this]
      rfl
    | some st =>
      have hsch := (findStat_some_school hf).1
      simp [hupd st hsch]

theorem findStat_statStep_self {acc : List SchoolStat} {r : WasteRecord} {sc : String}
    (hk : schoolKeyOf r = some sc) :
    findStat sc (statStep acc r) =
      some (statUpd r sc
        (match findStat sc acc with
         | some st => st
         | none => ⟨sc, .vnum (.fin 0), .fin 0, r.DISTRICT⟩)) := by
  rw [statStep_eq hk, findStat_map (statUpd_school r sc)]
  by_cases hany : acc.any (fun st => st.school == sc)
  · rw [if_pos hany]
    obtain ⟨st, hst⟩ := (findStat_isSome_iff_any sc acc).mp hany
    rw [hst]
    rfl
  · rw [if_neg hany, findStat_append_single]
    have hnone : findStat sc acc = none := by
      cases hf : findStat sc acc with
      | none => rfl
      | some st => exact absurd ((findStat_isSome_iff_any sc acc).mpr ⟨st, hf⟩) hany
    rw [hnone]
    simp only []
    rw [if_pos (by simp)]
    rfl

theorem statUpd_self_values {r : WasteRecord} {sc : String} {st : SchoolStat} {t e : ℚ}
    (hst : st.school = sc)
    (hR : finiteLike r.RECYCLE = true) (hC : finiteLike r.COMPOST = true)
    (hE : finiteLike r.ENROLLMENT = true)
    (hd : st.diverted = .vnum (.fin t)) (hen : st.enrollment = .fin e) :
    (statUpd r sc st).diverted = .vnum (.fin (t + (num r.RECYCLE + num r.COMPOST)))
    ∧ (statUpd r sc st).enrollment = .fin (max e (num r.ENROLLMENT)) := by
  simp only [statUpd, hst, beq_self_eq_true, if_pos]
  rw [divertedVal_collapse hR hC, hd, jsAdd_fin, enrollVal_collapse hE, hen, jsMaxNum_fin]
  exact ⟨rfl, rfl⟩

theorem groupOf_cons_mem {s : String} {r : WasteRecord} {rs : List WasteRecord}
    (h : schoolKeyOf r = some s) : groupOf s (r :: rs) = r :: groupOf s rs := by
  simp [groupOf, List.filter_cons, h]

theorem groupOf_cons_not {s : String} {r : WasteRecord} {rs : List WasteRecord}
    (h : ¬ schoolKeyOf r = some s) : groupOf s (r :: rs) = groupOf s rs := by
  simp [groupOf, List.filter_cons, h]

theorem gSum_cons_mem {s : String} {r : WasteRecord} {rs : List WasteRecord}
    (h : schoolKeyOf r = some s) :
    gSum s (r :: rs) = (num r.RECYCLE + num r.COMPOST) + gSum s rs := by
  simp [gSum, groupOf_cons_mem h]

theorem gSum_cons_not {s : String} {r : WasteRecord} {rs : List WasteRecord}
    (h : ¬ schoolKeyOf r = some s) : gSum s (r :: rs) = gSum s rs := by
  simp [gSum, groupOf_cons_not h]

theorem gMaxFrom_cons_mem {e : ℚ} {s : String} {r : WasteRecord} {rs : List WasteRecord}
    (h : schoolKeyOf r = some s) :
    gMaxFrom e s (r :: rs) = gMaxFrom (max e (num r.ENROLLMENT)) s rs := by
  simp [gMaxFrom, groupOf_cons_mem h]

theorem gMaxFrom_cons_not {e : ℚ} {s : String} {r : WasteRecord} {rs : List WasteRecord}
    (h : ¬ schoolKeyOf r = some s) : gMaxFrom e s (r :: rs) = gMaxFrom e s rs := by
  simp [gMaxFrom, groupOf_cons_not h]

theorem foldl_statStep_spec :
    ∀ (rs : List WasteRecord) (acc : List SchoolStat),
    (∀ r ∈ rs, finiteLike r.RECYCLE = true ∧ finiteLike r.COMPOST = true ∧
      finiteLike r.ENROLLMENT = true) →
    ∀ s : String,
    (∀ st0 : SchoolStat, ∀ t e : ℚ, findStat s acc = some st0 →
      st0.diverted = .vnum (.fin t) → st0.enrollment = .fin e →
      ∃ st1, findStat s (rs.foldl statStep acc) = some st1
        ∧ st1.diverted = .vnum (.fin (t + gSum s rs))
        ∧ st1.enrollment = .fin (gMaxFrom e s rs))
    ∧ (findStat s acc = none → groupOf s rs ≠ [] →
      ∃ st1, findStat s (rs.foldl statStep acc) = some st1
        ∧ st1.diverted = .vnum (.fin (gSum s rs))
        ∧ st1.enrollment = .fin (gMaxFrom 0 s rs)) := by
  intro rs
  induction rs with
  | nil =>
    intro acc _ s
    constructor
    · intro st0 t e h0 hd hen
      refine ⟨st0, h0, ?_, ?_⟩
      · rw [hd]
        norm_num [gSum, groupOf]
      · rw [hen]
        simp [gMaxFrom, groupOf]
    · intro _ hne
      exact absurd rfl hne
  | cons r rs ih =>
    intro acc hfin s
    have hfr := hfin r (List.mem_cons_self r rs)
    have hftail : ∀ x ∈ rs, finiteLike x.RECYCLE = true ∧ finiteLike x.COMPOST = true ∧
        finiteLike x.ENROLLMENT = true := fun x hx => hfin x (List.mem_cons_of_mem r hx)
    rw [List.foldl_cons]
    cases hko : schoolKeyOf r with
    | none =>
      rw [statStep_none hko]
      have hgnot : ¬ schoolKeyOf r = some s := by rw [hko]; intro hcon; cases hcon
      constructor
      · intro st0 t e h0 hd hen
        obtain ⟨st1, h1, h2, h3⟩ := (ih acc hftail s).1 st0 t e h0 hd hen
        exact ⟨st1, h1, by rw [h2, gSum_cons_not hgnot], by rw [h3, gMaxFrom_cons_not hgnot]⟩
      · intro h0 hne
        rw [groupOf_cons_not hgnot] at hne
        obtain ⟨st1, h1, h2, h3⟩ := (ih acc hftail s).2 h0 hne
        exact ⟨st1, h1, by rw [h2, gSum_cons_not hgnot], by rw [h3, gMaxFrom_cons_not hgnot]⟩
    | some sc =>
      by_cases hss : s = sc
      · subst hss
        have hmem : schoolKeyOf r = some s := hko
        constructor
        · intro st0 t e h0 hd hen
          have hself := @findStat_statStep_self acc r s hmem
          rw [h0] at hself
          have hvals := statUpd_self_values (findStat_some_school h0).1
            hfr.1 hfr.2.1 hfr.2.2 hd hen
          obtain ⟨st1, h1, h2, h3⟩ := (ih (statStep acc r) hftail s).1
            (statUpd r s st0) (t + (num r.RECYCLE + num r.COMPOST))
            (max e (num r.ENROLLMENT)) hself hvals.1 hvals.2
          refine ⟨st1, h1, ?_, ?_⟩
          · rw [h2, gSum_cons_mem hmem]
            ring_nf
          · rw [h3, gMaxFrom_cons_mem hmem]
        · intro h0 _
          have hself := @findStat_statStep_self acc r s hmem
          rw [h0] at hself
          have hvals := statUpd_self_values
            (rfl : (⟨s, .vnum (.fin 0), .fin 0, r.DISTRICT⟩ : SchoolStat).school = s)
            hfr.1 hfr.2.1 hfr.2.2 rfl rfl
          obtain ⟨st1, h1, h2, h3⟩ := (ih (statStep acc r) hftail s).1
            (statUpd r s ⟨s, .vnum (.fin 0), .fin 0, r.DISTRICT⟩)
            (0 + (num r.RECYCLE + num r.COMPOST)) (max 0 (num r.ENROLLMENT))
            hself hvals.1 hvals.2
          refine ⟨st1, h1, ?_, ?_⟩
          · rw [h2, gSum_cons_mem hmem]
            ring_nf
          · rw [h3, gMaxFrom_cons_mem hmem]
      · have hgnot : ¬ schoolKeyOf r = some s := by
          rw [hko]
          intro hcon
          injection hcon with hcon
          exact hss hcon.symm
        have hother := @findStat_statStep_other acc r s sc hko hss
        constructor
        · intro st0 t e h0 hd hen
          obtain ⟨st1, h1, h2, h3⟩ := (ih (statStep acc r) hftail s).1 st0 t e
            (by rw [hother]; exact h0) hd hen
          exact ⟨st1, h1, by rw [h2, gSum_cons_not hgnot], by rw [h3, gMaxFrom_cons_not hgnot]⟩
        · intro h0 hne
          rw [groupOf_cons_not hgnot] at hne
          obtain ⟨st1, h1, h2, h3⟩ := (ih (statStep acc r) hftail s).2
            (by rw [hother]; exact h0) hne
          exact ⟨st1, h1, by rw [h2, gSum_cons_not hgnot], by rw [h3, gMaxFrom_cons_not hgnot]⟩
/-! ### Structural lemmas for the leaderboard pipeline -/

theorem map_school_of_preserved {u : SchoolStat → SchoolStat}
    (hu : ∀ st, (u st).school = st.school) :
    ∀ l : List SchoolStat, (l.map u).map SchoolStat.school = l.map SchoolStat.school := by
  intro l
  induction l with
  | nil => rfl
  | cons b bs ih => simp only [List.map_cons, hu, ih]

theorem statStep_map_school (acc : List SchoolStat) (r : WasteRecord) :
    (statStep acc r).map SchoolStat.school = acc.map SchoolStat.school ∨
    ∃ sc, schoolKeyOf r = some sc ∧ sc ∉ acc.map SchoolStat.school ∧
      (statStep acc r).map SchoolStat.school = acc.map SchoolStat.school ++ [sc] := by
  cases hko : schoolKeyOf r with
  | none => exact Or.inl (by rw [statStep_none hko])
  | some sc =>
    rw [statStep_eq hko]
    by_cases hany : acc.any (fun st => st.school == sc)
    · rw [if_pos hany]
      exact Or.inl (map_school_of_preserved (statUpd_school r sc) acc)
    · rw [if_neg hany]
      refine Or.inr ⟨sc, rfl, ?_, ?_⟩
      · intro hmem
        rcases List.mem_map.mp hmem with ⟨st, hst, hsc⟩
        exact hany (List.any_eq_true.mpr ⟨st, hst, beq_iff_eq.mpr hsc⟩)
      · rw [map_school_of_preserved (statUpd_school r sc), List.map_append]
        rfl

theorem foldl_statStep_nodup : ∀ (rs : List WasteRecord) (acc : List SchoolStat),
    (acc.map SchoolStat.school).Nodup →
    ((rs.foldl statStep acc).map SchoolStat.school).Nodup := by
  intro rs
  induction rs with
  | nil => intro acc h; simpa using h
  | cons r rs ih =>
    intro acc h
    rw [List.foldl_cons]
    refine ih _ ?_
    rcases statStep_map_school acc r with heq | ⟨sc, _, hnot, heq⟩
    · rw [heq]; exact h
    · rw [heq]
      simp [List.nodup_append, h, hnot]

theorem foldl_statStep_provenance : ∀ (rs : List WasteRecord) (acc : List SchoolStat),
    ∀ st ∈ rs.foldl statStep acc,
      (∃ st0 ∈ acc, st.school = st0.school) ∨
      (st.school ≠ "" ∧ ∃ r ∈ rs, r.SCHOOL = some st.school) := by
  intro rs
  induction rs with
  | nil => intro acc st hst; exact Or.inl ⟨st, hst, rfl⟩
  | cons r rs ih =>
    intro acc st hst
    rw [List.foldl_cons] at hst
    rcases ih (statStep acc r) st hst with ⟨st0, hst0, hsch⟩ | h
    · cases hko : schoolKeyOf r with
      | none =>
        rw [statStep_none hko] at hst0
        exact Or.inl ⟨st0, hst0, hsch⟩
      | some sc =>
        rw [statStep_eq hko] at hst0
        rcases List.mem_map.mp hst0 with ⟨st1, hst1, rfl⟩
        have hsch1 : st.school = st1.school := hsch.trans (statUpd_school r sc st1)
        by_cases hany : acc.any (fun x => x.school == sc)
        · rw [if_pos hany] at hst1
          exact Or.inl ⟨st1, hst1, hsch1⟩
        · rw [if_neg hany] at hst1
          rcases List.mem_append.mp hst1 with hst1 | hst1
          · exact Or.inl ⟨st1, hst1, hsch1⟩
          · rcases List.mem_singleton.mp hst1 with rfl
            obtain ⟨hS, hne⟩ := schoolKeyOf_some hko
            refine Or.inr ⟨?_, r, List.mem_cons_self r rs, ?_⟩
            · rw [hsch1]; exact hne
            · rw [hsch1]; exact hS
    · exact Or.inr ⟨h.1, h.2.choose, List.mem_cons_of_mem r h.2.choose_spec.1, h.2.choose_spec.2⟩

theorem foldl_statStep_skip : ∀ (rs : List WasteRecord) (acc : List SchoolStat),
    rs.foldl statStep acc = (rs.filter (fun r => (schoolKeyOf r).isSome)).foldl statStep acc := by
  intro rs
  induction rs with
  | nil => intro acc; rfl
  | cons r rs ih =>
    intro acc
    rw [List.foldl_cons, List.filter_cons]
    cases hko : schoolKeyOf r with
    | none =>
      rw [statStep_none hko]
      simp only [hko, Option.isSome_none, Bool.false_eq_true, if_neg, not_false_iff]
      exact ih acc
    | some sc =>
      simp only [hko, Option.isSome_some, if_pos]
      rw [List.foldl_cons]
      exact ih (statStep acc r)

theorem assignRanks_length : ∀ (i : ℕ) (l : List LeaderboardEntry),
    (assignRanks i l).length = l.length := by
  intro i l
  induction l generalizing i with
  | nil => rfl
  | cons e es ih => simp [assignRanks, ih]

theorem assignRanks_get_rank : ∀ (l : List LeaderboardEntry) (i j : ℕ)
    (h : j < (assignRanks i l).length),
    ((assignRanks i l).get ⟨j, h⟩).rank = i + j + 1 := by
  intro l
  induction l with
  | nil => intro i j h; simp [assignRanks] at h
  | cons e es ih =>
    intro i j h
    cases j with
    | zero => rfl
    | succ j =>
      have hlt : j < (assignRanks (i + 1) es).length := by
        simpa [assignRanks] using h
      have := ih (i + 1) j hlt
      simp only [assignRanks, List.get_cons_succ]
      rw [this]
      omega

theorem assignRanks_map_school : ∀ (i : ℕ) (l : List LeaderboardEntry),
    (assignRanks i l).map LeaderboardEntry.school = l.map LeaderboardEntry.school := by
  intro i l
  induction l generalizing i with
  | nil => rfl
  | cons e es ih => simp [assignRanks, ih]

theorem assignRanks_elem : ∀ (i : ℕ) (l : List LeaderboardEntry),
    ∀ x ∈ assignRanks i l, ∃ y ∈ l, x.school = y.school ∧ x.district = y.district ∧
      x.score = y.score ∧ x.totalDiverted = y.totalDiverted := by
  intro i l
  induction l generalizing i with
  | nil => intro x hx; simp [assignRanks] at hx
  | cons e es ih =>
    intro x hx
    rcases List.mem_cons.mp hx with rfl | hx
    · exact ⟨e, List.mem_cons_self e es, rfl, rfl, rfl, rfl⟩
    · obtain ⟨y, hy, h⟩ := ih (i + 1) x hx
      exact ⟨y, List.mem_cons_of_mem e hy, h⟩

theorem assignRanks_elem_rev : ∀ (i : ℕ) (l : List LeaderboardEntry),
    ∀ y ∈ l, ∃ x ∈ assignRanks i l, x.school = y.school ∧ x.district = y.district ∧
      x.score = y.score ∧ x.totalDiverted = y.totalDiverted := by
  intro i l
  induction l generalizing i with
  | nil => intro y hy; simp at hy
  | cons e es ih =>
    intro y hy
    rcases List.mem_cons.mp hy with rfl | hy
    · exact ⟨{ y with rank := i + 1 }, List.mem_cons_self _ _, rfl, rfl, rfl, rfl⟩
    · obtain ⟨x, hx, h⟩ := ih (i + 1) y hy
      exact ⟨x, List.mem_cons_of_mem _ hx, h⟩

theorem assignRanks_pairwise (Rs : JsNum → JsNum → Prop) :
    ∀ (i : ℕ) (l : List LeaderboardEntry),
    l.Pairwise (fun a b => Rs a.score b.score) →
    (assignRanks i l).Pairwise (fun a b => Rs a.score b.score) := by
  intro i l
  induction l generalizing i with
  | nil => intro _; exact List.Pairwise.nil
  | cons e es ih =>
    intro h
    rw [List.pairwise_cons] at h
    refine List.Pairwise.cons ?_ (ih (i + 1) h.2)
    intro x hx
    obtain ⟨y, hy, _, _, hsc, _⟩ := assignRanks_elem (i + 1) es x hx
    rw [hsc]
    exact h.1 y hy

theorem assignRanks_filter_score (p : JsNum → Bool) :
    ∀ (i : ℕ) (l : List LeaderboardEntry),
    ((assignRanks i l).filter (fun e => p e.score)).map LeaderboardEntry.school =
      (l.filter (fun e => p e.score)).map LeaderboardEntry.school := by
  intro i l
  induction l generalizing i with
  | nil => rfl
  | cons e es ih =>
    simp only [assignRanks, List.filter_cons]
    by_cases hp : p e.score
    · simp only [hp, if_pos, List.map_cons]
      rw [ih (i + 1)]
    · simp only [hp, Bool.false_eq_true, if_neg, not_false_iff]
      exact ih (i + 1)

theorem sortBy_length (le : α → α → Bool) (l : List α) :
    (sortBy le l).length = l.length :=
  (sortBy_perm le l).length_eq

theorem mkEntry_school (st : SchoolStat) : (mkEntry st).school = st.school := rfl
theorem jsPos_sub_asymm : ∀ p q : JsNum, jsPos (jsNumSub q p) = true →
    jsPos (jsNumSub p q) = false := by
  intro p q
  cases p <;> cases q <;> simp [jsNumSub, jsPos] <;> intro h <;> linarith

theorem scoreKeep_total (a b : LeaderboardEntry) (h : scoreKeep a b = false) :
    scoreKeep b a = true := by
  have h2 : jsPos (jsNumSub b.score a.score) = true := by
    simpa [scoreKeep] using h
  simp only [scoreKeep, jsPos_sub_asymm _ _ h2, Bool.not_false]

theorem scoreKeep_fin {a b : LeaderboardEntry} {p q : ℚ}
    (ha : a.score = .fin p) (hb : b.score = .fin q) :
    scoreKeep a b = true ↔ q ≤ p := by
  simp [scoreKeep, ha, hb, jsNumSub, jsPos, not_lt, sub_nonpos]

theorem rankSchools_elem {rs : List WasteRecord} {ent : LeaderboardEntry}
    (h : ent ∈ rankSchools rs) :
    ∃ st ∈ schoolStats rs, ent.school = st.school ∧ ent.district = st.district ∧
      ent.score = (if jsPos st.enrollment then jsDiv (jsToNumber st.diverted) st.enrollment
                   else .fin 0) ∧
      ent.totalDiverted = st.diverted := by
  obtain ⟨y, hy, h1, h2, h3, h4⟩ := assignRanks_elem 0 _ ent h
  have hy2 : y ∈ leaderboardEntries rs := mem_sortBy.mp hy
  rcases List.mem_map.mp hy2 with ⟨st, hst, rfl⟩
  exact ⟨st, hst, h1, h2, h3, h4⟩

theorem rankSchools_elem_rev {rs : List WasteRecord} {st : SchoolStat}
    (h : st ∈ schoolStats rs) :
    ∃ ent ∈ rankSchools rs, ent.school = st.school ∧ ent.totalDiverted = st.diverted := by
  have h1 : mkEntry st ∈ leaderboardEntries rs := List.mem_map_of_mem mkEntry h
  have h2 : mkEntry st ∈ sortBy scoreKeep (leaderboardEntries rs) := mem_sortBy.mpr h1
  obtain ⟨x, hx, hsc, _, _, hdiv⟩ := assignRanks_elem_rev 0 _ (mkEntry st) h2
  exact ⟨x, hx, hsc, hdiv⟩
/-! ### The prefix semantics of the normalizer on digit prefixes -/

theorem isDigit_toNat {c : Char} (h : c.isDigit = true) :
    48 ≤ c.toNat ∧ c.toNat ≤ 57 := by
  simp only [Char.isDigit, Bool.and_eq_true, decide_eq_true_eq] at h
  obtain ⟨h1, h2⟩ := h
  rw [ge_iff_le, UInt32.le_def, BitVec.le_def] at h1
  rw [UInt32.le_def, BitVec.le_def] at h2
  exact ⟨h1, h2⟩

theorem digit_ne_of_toNat {c d : Char} (h : c.isDigit = true)
    (hd : d.toNat < 48 ∨ 57 < d.toNat) : c ≠ d := by
  intro hcd
  have hb := isDigit_toNat h
  rw [hcd] at hb
  omega

theorem digit_not_jsWS {c : Char} (h : c.isDigit = true) : isJsWS c = false := by
  have hb := isDigit_toNat h
  simp only [isJsWS, Bool.or_eq_false_iff, decide_eq_false_iff_not]
  omega

theorem takeWhile_append_all {α} {p : α → Bool} : ∀ (ds rest : List α),
    (∀ c ∈ ds, p c = true) → (∀ c, rest.head? = some c → p c = false) →
    (ds ++ rest).takeWhile p = ds ∧ (ds ++ rest).dropWhile p = rest := by
  intro ds
  induction ds with
  | nil =>
    intro rest _ hrest
    cases rest with
    | nil => exact ⟨rfl, rfl⟩
    | cons ch cs =>
      have hc := hrest ch rfl
      simp [List.takeWhile_cons, List.dropWhile_cons, hc]
  | cons d ds ih =>
    intro rest hds hrest
    have hd := hds d (List.mem_cons_self d ds)
    have := ih rest (fun c hc => hds c (List.mem_cons_of_mem d hc)) hrest
    simp [List.takeWhile_cons, List.dropWhile_cons, hd, this.1, this.2]

theorem parse_digit_head (ds rest : List Char) (hne : ds ≠ [])
    (hds : ∀ c ∈ ds, c.isDigit = true)
    (hrest : ∀ c, rest.head? = some c →
      c.isDigit = false ∧ c ≠ '.' ∧ c ≠ 'e' ∧ c ≠ 'E') :
    parseFloatJS ⟨ds ++ rest⟩ = .fin (digitsToNat ds) := by
  cases ds with
  | nil => exact absurd rfl hne
  | cons d0 ds =>
    have hd0 : d0.isDigit = true := hds d0 (List.mem_cons_self d0 ds)
    have hb := isDigit_toNat hd0
    have hlist : (⟨(d0 :: ds) ++ rest⟩ : String).data = d0 :: (ds ++ rest) := rfl
    have hdw : (d0 :: (ds ++ rest)).dropWhile isJsWS = d0 :: (ds ++ rest) := by
      rw [List.dropWhile_cons, digit_not_jsWS hd0]
      simp
    have hplus : ¬ ((d0 :: (ds ++ rest)).head? = some '+') := by
      simp only [List.head?, Option.some.injEq]
      exact digit_ne_of_toNat hd0 (by decide)
    have hminus : ¬ ((d0 :: (ds ++ rest)).head? = some '-') := by
      simp only [List.head?, Option.some.injEq]
      exact digit_ne_of_toNat hd0 (by decide)
    have hinf : ¬ ((d0 :: (ds ++ rest)).take 8 = "Infinity".data) := by
      intro hcon
      have hh := congrArg List.head? hcon
      rw [List.take_succ_cons] at hh
      simp only [List.head?] at hh
      have hI : d0 = 'I' := Option.some.inj hh
      rw [hI] at hb
      revert hb
      decide
    have htw := @takeWhile_append_all Char Char.isDigit (d0 :: ds) rest hds
      (fun c hc => (hrest c hc).1)
    have hdot : ¬ (rest.head? = some '.') := by
      cases rest with
      | nil => simp
      | cons ch cs =>
        simp only [List.head?, Option.some.injEq]
        exact (hrest ch rfl).2.1
    have hexp : ¬ (rest.head? = some 'e' ∨ rest.head? = some 'E') := by
      cases rest with
      | nil => simp
      | cons ch cs =>
        simp only [List.head?, Option.some.injEq]
        push_neg
        exact ⟨(hrest ch rfl).2.2.1, (hrest ch rfl).2.2.2⟩
    obtain ⟨htw1, htw2⟩ := htw
    rw [List.cons_append] at htw1 htw2
    have hni : (d0 :: ds).isEmpty = false := rfl
    have hz : digitsToNat ([] : List Char) = 0 := rfl
    simp only [parseFloatJS, hlist, List.cons_append, hdw, hplus, hminus, if_neg,
      not_false_iff, parseFloatBody, hinf, htw1, htw2, hdot, hexp, parseExp, hni, hz,
      Bool.false_and, Bool.false_eq_true]
    norm_num [applyExp]

theorem num_digit_head (s : String) (ds rest : List Char)
    (hdata : (stripCommas s).data = ds ++ rest) (hne : ds ≠ [])
    (hds : ∀ c ∈ ds, c.isDigit = true)
    (hrest : ∀ c, rest.head? = some c →
      c.isDigit = false ∧ c ≠ '.' ∧ c ≠ 'e' ∧ c ≠ 'E') :
    num (.vstr s) = (digitsToNat ds : ℚ) := by
  have hstr : stripCommas s = ⟨ds ++ rest⟩ := str_ext hdata
  simp only [num, hstr, parse_digit_head ds rest hne hds hrest, finOrZero]
/-- Finite-number test on a JS number. -/
def isFinB : JsNum → Bool
  | .fin _ => true
  | _ => false

/-! ### The claims

Rational arithmetic is sealed `@[irreducible]` upstream; within this final
section we reopen it so that the kernel can evaluate the engine on the
concrete examples below. -/

section ClaimSection

attribute [local semireducible] Rat.add Rat.mul Rat.inv Rat.sub Rat.ofScientific

/-- The three records of the spec's aggregation example (§8.3). -/
def exAgg : List WasteRecord :=
  [⟨2025, 9, "D", some "S", .vnum (.fin 500), .vstr "100", .vstr "50"⟩,
   ⟨2025, 9, "D", some "S", .vnum (.fin 500), .vstr "20", .vstr "0"⟩,
   ⟨2025, 10, "D", some "S", .vnum (.fin 500), .vstr "10", .vstr "10"⟩]

/-- Two duplicate sub-account reports for the same latest period (§8.4). -/
def exDup : List WasteRecord :=
  [⟨2025, 9, "D", some "S", .vnum (.fin 500), .vstr "100", .vstr "50"⟩,
   ⟨2025, 9, "D", some "S", .vnum (.fin 520), .vstr "20", .vstr "0"⟩]

/-- A single record with a negative reporting year. -/
def exNegYear : List WasteRecord :=
  [⟨-1, 5, "D", some "S", .vnum (.fin 500), .vnull, .vnull⟩]

/-- Three schools with scores 3, 5 and 1 (§8.6). -/
def exScores : List WasteRecord :=
  [⟨2025, 1, "D", some "A", .vnum (.fin 1), .vnum (.fin 3), .vnum (.fin 0)⟩,
   ⟨2025, 1, "D", some "B", .vnum (.fin 1), .vnum (.fin 5), .vnum (.fin 0)⟩,
   ⟨2025, 1, "D", some "C", .vnum (.fin 1), .vnum (.fin 1), .vnum (.fin 0)⟩]

/-- One school whose recycle weight arrives as text. -/
def exStr : List WasteRecord :=
  [⟨2025, 9, "D", some "S", .vnum (.fin 500), .vstr "100", .vnull⟩]

/-- One school with plain numeric fields. -/
def exNum : List WasteRecord :=
  [⟨2025, 9, "D", some "S", .vnum (.fin 500), .vnum (.fin 100), .vnull⟩]

/-- C1: `normalizeNumber` (source `num`) is total and never throws — in the
model it is a plain function into the (finite) rationals.  A finite numeric
input is returned unchanged; a string is comma-stripped then parsed with
`parseFloat` and non-finite parses collapse to `0`; `null`, `undefined`,
the empty string, `NaN`, the infinities, and unparseable strings like
`"garbage"` all give `0`; and `normalizeNumber("1,234") = 1234`. -/
theorem normalizeNumber_totality :
    (∀ q : ℚ, num (.vnum (.fin q)) = q)
    ∧ num .vnull = 0 ∧ num .vundef = 0 ∧ num (.vstr "") = 0
    ∧ num (.vnum .nan) = 0 ∧ num (.vnum .posInf) = 0 ∧ num (.vnum .negInf) = 0
    ∧ (∀ s : String, ∀ q : ℚ, parseFloatJS (stripCommas s) = .fin q → num (.vstr s) = q)
    ∧ (∀ s : String, isFinB (parseFloatJS (stripCommas s)) = false → num (.vstr s) = 0)
    ∧ num (.vstr "1,234") = 1234 ∧ num (.vstr "garbage") = 0 := by
  refine ⟨fun q => rfl, rfl, rfl, by decide, rfl, rfl, rfl, ?_, ?_, by decide, by decide⟩
  · intro s q h
    simp [num, h, finOrZero]
  · intro s h
    simp only [num]
    cases hp : parseFloatJS (stripCommas s) with
    | fin q => rw [hp] at h; simp [isFinB] at h
    | nan => rfl
    | posInf => rfl
    | negInf => rfl

/-- C1 witness: the general clauses of `normalizeNumber_totality`
instantiated at the concrete strings `"2.5"` and `"abc"`. -/
theorem normalizeNumber_totality_witness :
    num (.vstr "2.5") = 5 / 2 ∧ num (.vstr "abc") = 0 :=
  ⟨normalizeNumber_totality.2.2.2.2.2.2.2.1 "2.5" (5 / 2) (by decide),
   normalizeNumber_totality.2.2.2.2.2.2.2.2.1 "abc" (by decide)⟩

/-- C9: on a comma-stripped form that starts with a digit prefix followed
by a character that cannot extend a numeric literal, `normalizeNumber`
returns the value of that prefix (parseFloat prefix semantics), and every
comma is stripped regardless of position; in particular
`normalizeNumber("12abc") = 12`, `normalizeNumber("1,2,3") = 123`, and the
prefix semantics also covers fractions and exponents as in
`normalizeNumber("1.5x2") = 1.5` and `normalizeNumber("2e3q") = 2000`. -/
theorem normalizeNumber_prefix_semantics :
    (∀ (s : String) (ds rest : List Char),
      (stripCommas s).data = ds ++ rest → ds ≠ [] →
      (∀ c ∈ ds, c.isDigit = true) →
      (∀ c, rest.head? = some c →
        c.isDigit = false ∧ c ≠ '.' ∧ c ≠ 'e' ∧ c ≠ 'E') →
      num (.vstr s) = (digitsToNat ds : ℚ))
    ∧ (∀ s : String, (stripCommas s).data = s.data.filter (fun c => c ≠ ','))
    ∧ num (.vstr "12abc") = 12 ∧ num (.vstr "1,2,3") = 123
    ∧ num (.vstr "1.5x2") = 3 / 2 ∧ num (.vstr "2e3q") = 2000 :=
  ⟨num_digit_head, fun _ => rfl, by decide, by decide, by decide, by decide⟩

/-- C9 witness: the digit-prefix clause instantiated at `"7,5kg"`, whose
comma-stripped form is the digit prefix `75` followed by `kg`. -/
theorem normalizeNumber_prefix_semantics_witness : num (.vstr "7,5kg") = 75 :=
  normalizeNumber_prefix_semantics.1 "7,5kg" ['7', '5'] ['k', 'g'] (by decide)
    (by decide) (by decide) (by decide)

/-- C3: every aggregate produced by `aggregateMonthly` satisfies
`divertedLbs = recycleLbs + compostLbs` exactly, where the recycle and
compost fields are the sums of the normalized record fields of the
aggregate's group. -/
theorem aggregate_diverted_additivity (rs : List WasteRecord) :
    ∀ a ∈ aggregateMonthly rs, a.diverted = a.recycle + a.compost := by
  intro a ha
  exact foldl_aggStep_additive rs [] (by simp) a (mem_sortBy.mp ha)

/-- C3 witness: the additivity theorem applied to the §8.3 example's
September aggregate, whose membership is checked by evaluation. -/
theorem aggregate_diverted_additivity_witness :
    (170 : ℚ) = 120 + 50 := by
  have h := aggregate_diverted_additivity exAgg
    ⟨"2025-09", 2025, 9, 120, 50, 170⟩ (by decide)
  simpa using h

/-- C8: on the empty record list every engine operation returns its empty
result: no aggregates, an empty leaderboard, and enrollment `0`. -/
theorem engine_empty_inputs :
    aggregateMonthly [] = [] ∧ resolveEnrollment [] = 0 ∧ rankSchools [] = [] :=
  ⟨rfl, rfl, rfl⟩

/-- C2: on the data model's month range (months 1-12, `spec.md` §3), the
aggregator produces the aggregates in strictly ascending lexicographic
period-key order, every aggregate carries the key `"{year}-{month padded
to two digits}"` of a (year, month) pair present in the input, every input
record's pair is represented by an aggregate (so there is exactly one
aggregate per distinct pair: two aggregates with the same pair would share
a key, contradicting strict ordering), and the §8.3 example yields exactly
`"2025-09"` with diverted 170 followed by `"2025-10"` with diverted 20. -/
theorem aggregateMonthly_period_grouping :
    (∀ rs : List WasteRecord, (∀ r ∈ rs, 1 ≤ r.MONTH ∧ r.MONTH ≤ 12) →
      (aggregateMonthly rs).Pairwise (fun a b => strLt a.key b.key = true)
      ∧ (∀ a ∈ aggregateMonthly rs, a.key = monthKey a.year a.month
          ∧ ∃ r ∈ rs, r.YEAR = a.year ∧ r.MONTH = a.month)
      ∧ (∀ r ∈ rs, ∃ a ∈ aggregateMonthly rs, a.year = r.YEAR ∧ a.month = r.MONTH))
    ∧ aggregateMonthly exAgg =
      [⟨"2025-09", 2025, 9, 120, 50, 170⟩, ⟨"2025-10", 2025, 10, 10, 10, 20⟩] := by
  constructor
  · intro rs hm
    refine ⟨aggregateMonthly_sorted_keys rs, ?_, ?_⟩
    · intro a ha
      rcases foldl_aggStep_elem rs [] a (mem_sortBy.mp ha) with ⟨b, hb, _⟩ | ⟨r, hr, h1, h2, h3⟩
      · simp at hb
      · exact ⟨by rw [h1, h2, h3], r, hr, h2.symm, h3.symm⟩
    · intro r hr
      have hk := foldl_aggStep_cover rs [] r hr
      rcases List.mem_map.mp hk with ⟨a, haL, hak⟩
      rcases foldl_aggStep_elem rs [] a haL with ⟨b, hb, _⟩ | ⟨r2, hr2, h1, h2, h3⟩
      · simp at hb
      · have heq : monthKey r2.YEAR r2.MONTH = monthKey r.YEAR r.MONTH := by
          rw [← h1, hak]
        have hb1 := hm r2 hr2
        have hb2 := hm r hr
        have hinj := monthKey_inj hb1.1 hb1.2 hb2.1 hb2.2 heq
        exact ⟨a, mem_sortBy.mpr haL, by rw [h2, hinj.1], by rw [h3, hinj.2]⟩
  · decide

/-- C2 witness: the grouping theorem applied to the §8.3 example records,
whose months
are all in range. -/
theorem aggregateMonthly_period_grouping_witness :
    (aggregateMonthly exAgg).Pairwise (fun a b => strLt a.key b.key = true)
    ∧ ∀ r ∈ exAgg, ∃ a ∈ aggregateMonthly exAgg, a.year = r.YEAR ∧ a.month = r.MONTH := by
  have h := aggregateMonthly_period_grouping.1 exAgg (by decide)
  exact ⟨h.1, h.2.2⟩

/-- C4 counterexample: the latest-period fold is seeded with `(0, 0)`, so
for a record list whose latest (year, month) pair is lexicographically
below `(0, 0)` — here a single record with year `-1`, month `5` and
enrollment `500` — the resolver returns `0` instead of the latest period's
maximum enrollment `500`. -/
theorem resolveEnrollment_seed_counterexample :
    resolveEnrollment exNegYear = 0
    ∧ (∀ r ∈ exNegYear, lexLe (r.YEAR, r.MONTH) (-1, 5))
    ∧ (∃ r ∈ exNegYear, (r.YEAR, r.MONTH) = (-1, 5) ∧ num r.ENROLLMENT = 500)
    ∧ (0 : ℚ) ≠ 500 :=
  ⟨by decide, by decide, by decide, by norm_num⟩

/-- C4 (amended): whenever some record's (year, month) pair is
lexicographically at least the `(0, 0)` fold seed — true of every real
dataset, e.g. whenever some year is positive — `resolveEnrollment` selects
the numerically maximal (year, month) pair present and returns the maximum
(not the sum, average, or first) of the normalized enrollments over exactly
the records of that latest period; with two latest-period records carrying
enrollments 500 and 520 it returns 520, not 1020. -/
theorem resolveEnrollment_latest_max :
    (∀ rs : List WasteRecord, rs ≠ [] →
      (∃ r0 ∈ rs, lexLe (0, 0) (r0.YEAR, r0.MONTH)) →
      ∃ p : ℤ × ℤ, (∃ r ∈ rs, (r.YEAR, r.MONTH) = p)
        ∧ (∀ r ∈ rs, lexLe (r.YEAR, r.MONTH) p)
        ∧ (∃ r ∈ rs, (r.YEAR, r.MONTH) = p ∧ num r.ENROLLMENT = resolveEnrollment rs)
        ∧ (∀ r ∈ rs, (r.YEAR, r.MONTH) = p → num r.ENROLLMENT ≤ resolveEnrollment rs))
    ∧ resolveEnrollment exDup = 520 := by
  constructor
  · rintro rs hne ⟨r0, hr0, h00⟩
    obtain ⟨hmem, hacc, hall⟩ := foldl_latestStep_spec rs (0, 0)
    have hpmmem : ∃ r ∈ rs, (r.YEAR, r.MONTH) = rs.foldl latestStep (0, 0) := by
      rcases hmem with hmem | ⟨r, hr, hmem⟩
      · refine ⟨r0, hr0, ?_⟩
        have h1 := hall r0 hr0
        rw [hmem] at h1 ⊢
        exact lexLe_antisymm h1 h00
      · exact ⟨r, hr, hmem.symm⟩
    have hie : rs.isEmpty = false := by
      cases rs with
      | nil => exact absurd rfl hne
      | cons a l => rfl
    obtain ⟨rstar, hrs, hps⟩ := hpmmem
    have hstar : (rstar.YEAR == (rs.foldl latestStep (0, 0)).1
        && rstar.MONTH == (rs.foldl latestStep (0, 0)).2) = true := by
      have h1 : rstar.YEAR = (rs.foldl latestStep (0, 0)).1 := by rw [← hps]
      have h2 : rstar.MONTH = (rs.foldl latestStep (0, 0)).2 := by rw [← hps]
      simp [h1, h2]
    have hfil : rstar ∈ rs.filter (fun r => r.YEAR == (rs.foldl latestStep (0, 0)).1
        && r.MONTH == (rs.foldl latestStep (0, 0)).2) :=
      List.mem_filter.mpr ⟨hrs, hstar⟩
    have hmapmem : num rstar.ENROLLMENT ∈ (rs.filter (fun r =>
        r.YEAR == (rs.foldl latestStep (0, 0)).1
        && r.MONTH == (rs.foldl latestStep (0, 0)).2)).map (fun r => num r.ENROLLMENT) :=
      List.mem_map_of_mem _ hfil
    cases hl : (rs.filter (fun r => r.YEAR == (rs.foldl latestStep (0, 0)).1
        && r.MONTH == (rs.foldl latestStep (0, 0)).2)).map (fun r => num r.ENROLLMENT) with
    | nil => rw [hl] at hmapmem; simp at hmapmem
    | cons e es =>
      have hres : resolveEnrollment rs = es.foldl max e := by
        simp only [resolveEnrollment, hie, Bool.false_eq_true, if_neg, not_false_iff]
        rw [hl]
      refine ⟨rs.foldl latestStep (0, 0), ⟨rstar, hrs, hps⟩, fun r hr => hall r hr, ?_, ?_⟩
      · -- the maximum is attained by some latest-period record
        have hmax := foldl_max_mem es e
        have hmem2 : es.foldl max e ∈ e :: es := by
          rcases hmax with h | h
          · rw [h]; exact List.mem_cons_self e es
          · exact List.mem_cons_of_mem e h
        rw [← hl] at hmem2
        rcases List.mem_map.mp hmem2 with ⟨r, hrf, hrv⟩
        have hrr := List.mem_filter.mp hrf
        have hpair : (r.YEAR, r.MONTH) = rs.foldl latestStep (0, 0) := by
          have := hrr.2
          simp only [Bool.and_eq_true, beq_iff_eq] at this
          exact Prod.ext this.1 this.2
        exact ⟨r, hrr.1, hpair, by rw [hres, hrv]⟩
      · -- and bounds every latest-period record
        intro r hr hpair
        have hfl : r ∈ rs.filter (fun r => r.YEAR == (rs.foldl latestStep (0, 0)).1
            && r.MONTH == (rs.foldl latestStep (0, 0)).2) := by
          refine List.mem_filter.mpr ⟨hr, ?_⟩
          have h1 : r.YEAR = (rs.foldl latestStep (0, 0)).1 := by rw [← hpair]
          have h2 : r.MONTH = (rs.foldl latestStep (0, 0)).2 := by rw [← hpair]
          simp [h1, h2]
        have hm2 : num r.ENROLLMENT ∈ e :: es := by
          rw [← hl]
          exact List.mem_map_of_mem _ hfl
        rw [hres]
        rcases List.mem_cons.mp hm2 with hh | hh
        · rw [hh]
          exact foldl_max_init es e
        · exact foldl_max_le es e _ hh
  · decide

/-- C4 witness: the amended resolver theorem applied to the duplicate
sub-account example, together with its concrete value 520. -/
theorem resolveEnrollment_latest_max_witness :
    (∃ p : ℤ × ℤ, (∃ r ∈ exDup, (r.YEAR, r.MONTH) = p)
      ∧ (∀ r ∈ exDup, lexLe (r.YEAR, r.MONTH) p)
      ∧ (∃ r ∈ exDup, (r.YEAR, r.MONTH) = p ∧ num r.ENROLLMENT = resolveEnrollment exDup)
      ∧ (∀ r ∈ exDup, (r.YEAR, r.MONTH) = p →
          num r.ENROLLMENT ≤ resolveEnrollment exDup))
    ∧ resolveEnrollment exDup = 520 :=
  ⟨resolveEnrollment_latest_max.1 exDup (by decide) ⟨exDup.head (by decide),
    by simp [exDup], by decide⟩, resolveEnrollment_latest_max.2⟩

/-- C7: `computeKPIs` never errors on division: per-student is
`totalDivertedLbs / enrollment` when the enrollment is positive and `0`
when it is zero or negative; in particular `computeKPIs [] 0` has
per-student `0`.  The leaderboard score of every produced entry follows
the same guarded-division rule over its school's accumulated stat. -/
theorem computeKPIs_guarded_division :
    (∀ (aggs : List MonthlyAgg) (e : ℚ), e > 0 →
      (computeKPIs aggs e).perStudent = (computeKPIs aggs e).totalDiverted / e)
    ∧ (∀ (aggs : List MonthlyAgg) (e : ℚ), ¬ e > 0 → (computeKPIs aggs e).perStudent = 0)
    ∧ (computeKPIs [] 0).perStudent = 0
    ∧ (∀ (rs : List WasteRecord), ∀ ent ∈ rankSchools rs,
        ∃ st ∈ schoolStats rs, ent.school = st.school ∧
          ent.score = (if jsPos st.enrollment then jsDiv (jsToNumber st.diverted) st.enrollment
                       else .fin 0)) := by
  refine ⟨?_, ?_, rfl, ?_⟩
  · intro aggs e he
    simp [computeKPIs, he]
  · intro aggs e he
    simp [computeKPIs, he]
  · intro rs ent hent
    obtain ⟨st, hst, h1, _, h3, _⟩ := rankSchools_elem hent
    exact ⟨st, hst, h1, h3⟩

/-- C7 witness: the guarded-division clauses at enrollment 2 and 0, and
the score rule at the string-field example's single leaderboard entry. -/
theorem computeKPIs_guarded_division_witness :
    (computeKPIs [] 2).perStudent = (computeKPIs [] 2).totalDiverted / 2
    ∧ (computeKPIs [] 0).perStudent = 0
    ∧ ∃ st ∈ schoolStats exNum, (⟨1, "S", "D", .fin (1 / 5), .vnum (.fin 100)⟩ :
        LeaderboardEntry).school = st.school ∧
      (⟨1, "S", "D", .fin (1 / 5), .vnum (.fin 100)⟩ : LeaderboardEntry).score =
        (if jsPos st.enrollment then jsDiv (jsToNumber st.diverted) st.enrollment
         else .fin 0) :=
  ⟨computeKPIs_guarded_division.1 [] 2 (by norm_num),
   computeKPIs_guarded_division.2.2.1,
   computeKPIs_guarded_division.2.2.2 exNum ⟨1, "S", "D", .fin (1 / 5), .vnum (.fin 100)⟩
     (by decide)⟩

/-- C10: the leaderboard lists each truthy school name at most once, every
entry's school name is non-empty and comes from some input record, records
with a missing or empty school name are skipped entirely (filtering them
out does not change the output), and the ranks are exactly 1, 2, ..., N in
order. -/
theorem leaderboard_ranks_invariant (rs : List WasteRecord) :
    ((rankSchools rs).map LeaderboardEntry.school).Nodup
    ∧ (∀ e ∈ rankSchools rs, e.school ≠ "" ∧ ∃ r ∈ rs, r.SCHOOL = some e.school)
    ∧ rankSchools rs = rankSchools (rs.filter (fun r => (schoolKeyOf r).isSome))
    ∧ ∀ j (h : j < (rankSchools rs).length),
        ((rankSchools rs).get ⟨j, h⟩).rank = j + 1 := by
  have hstats : ((schoolStats rs).map SchoolStat.school).Nodup :=
    foldl_statStep_nodup rs [] (by simp)
  have hent : (leaderboardEntries rs).map LeaderboardEntry.school =
      (schoolStats rs).map SchoolStat.school := by
    simp only [leaderboardEntries, List.map_map]
    rfl
  refine ⟨?_, ?_, ?_, ?_⟩
  · have hperm := (sortBy_perm scoreKeep (leaderboardEntries rs)).map LeaderboardEntry.school
    have hsorted : ((sortBy scoreKeep (leaderboardEntries rs)).map
        LeaderboardEntry.school).Nodup := hperm.nodup_iff.mpr (hent ▸ hstats)
    have : rankSchools rs = assignRanks 0 (sortBy scoreKeep (leaderboardEntries rs)) := rfl
    rw [this, assignRanks_map_school]
    exact hsorted
  · intro e he
    obtain ⟨st, hst, h1, _, _, _⟩ := rankSchools_elem he
    rcases foldl_statStep_provenance rs [] st hst with ⟨st0, hst0, _⟩ | ⟨hne, r, hr, hrs⟩
    · simp at hst0
    · exact ⟨by rw [h1]; exact hne, r, hr, by rw [h1]; exact hrs⟩
  · show assignRanks 0 (sortBy scoreKeep ((rs.foldl statStep []).map mkEntry)) = _
    rw [foldl_statStep_skip]
    rfl
  · intro j h
    have h2 : j < (assignRanks 0 (sortBy scoreKeep (leaderboardEntries rs))).length := h
    have h3 := assignRanks_get_rank (sortBy scoreKeep (leaderboardEntries rs)) 0 j h2
    show ((assignRanks 0 (sortBy scoreKeep (leaderboardEntries rs))).get ⟨j, h2⟩).rank = j + 1
    rw [h3]
    omega

/-- C10 witness: the rank clause at index 0 and the skip clause, at the
three-school example. -/
theorem leaderboard_ranks_invariant_witness :
    ((rankSchools exScores).get ⟨0, by decide⟩).rank = 0 + 1 :=
  (leaderboard_ranks_invariant exScores).2.2.2 0 (by decide)

/-- C6: whenever the computed scores are (finite) numbers — the comparator
`b.score - a.score` is only a consistent ordering then — `rankSchools`
returns its entries sorted descending by score with rank `index + 1`
assigned after sorting, entries with equal scores keeping their stable
(insertion) order; the three schools with scores 3, 5 and 1 come back as
5 with rank 1, 3 with rank 2, 1 with rank 3. -/
theorem leaderboard_order_and_ranks :
    (∀ rs : List WasteRecord,
      (∀ e ∈ leaderboardEntries rs, isFinB e.score = true) →
      (rankSchools rs).Pairwise
        (fun a b => ∀ p q : ℚ, a.score = .fin p → b.score = .fin q → q ≤ p)
      ∧ (∀ j (h : j < (rankSchools rs).length), ((rankSchools rs).get ⟨j, h⟩).rank = j + 1)
      ∧ (∀ q : ℚ,
          ((rankSchools rs).filter (fun e => e.score == JsNum.fin q)).map
            LeaderboardEntry.school =
          ((leaderboardEntries rs).filter (fun e => e.score == JsNum.fin q)).map
            LeaderboardEntry.school))
    ∧ rankSchools exScores =
      [⟨1, "B", "D", .fin 5, .vnum (.fin 5)⟩,
       ⟨2, "A", "D", .fin 3, .vnum (.fin 3)⟩,
       ⟨3, "C", "D", .fin 1, .vnum (.fin 1)⟩] := by
  constructor
  · intro rs hfinB
    have hfin : ∀ e ∈ leaderboardEntries rs, ∃ p : ℚ, e.score = .fin p := by
      intro e he
      have := hfinB e he
      cases hs : e.score with
      | fin p => exact ⟨p, rfl⟩
      | nan => rw [hs] at this; simp [isFinB] at this
      | posInf => rw [hs] at this; simp [isFinB] at this
      | negInf => rw [hs] at this; simp [isFinB] at this
    refine ⟨?_, ?_, ?_⟩
    · have hsorted : (sortBy scoreKeep (leaderboardEntries rs)).Pairwise
          (fun a b => scoreKeep a b = true) := by
        refine sortBy_pairwise (fun a _ b _ h => h)
          (fun a _ b _ h => scoreKeep_total a b h) ?_
        intro a ha b hb c hc h1 h2
        obtain ⟨p, hp⟩ := hfin a ha
        obtain ⟨q, hq⟩ := hfin b hb
        obtain ⟨u, hu⟩ := hfin c hc
        exact (scoreKeep_fin hp hu).mpr
          (le_trans ((scoreKeep_fin hq hu).mp h2) ((scoreKeep_fin hp hq).mp h1))
      have hsorted2 : (sortBy scoreKeep (leaderboardEntries rs)).Pairwise
          (fun a b => ∀ p q : ℚ, a.score = .fin p → b.score = .fin q → q ≤ p) :=
        hsorted.imp (fun h p q hp hq => (scoreKeep_fin hp hq).mp h)
      exact assignRanks_pairwise
        (fun x y => ∀ p q : ℚ, x = .fin p → y = .fin q → q ≤ p) 0 _ hsorted2
    · intro j h
      have h2 : j < (assignRanks 0 (sortBy scoreKeep (leaderboardEntries rs))).length := h
      have h3 := assignRanks_get_rank (sortBy scoreKeep (leaderboardEntries rs)) 0 j h2
      show ((assignRanks 0 (sortBy scoreKeep (leaderboardEntries rs))).get ⟨j, h2⟩).rank
        = j + 1
      rw [h3]
      omega
    · intro q
      have hcond : ∀ a ∈ leaderboardEntries rs, ∀ b ∈ leaderboardEntries rs,
          (a.score == JsNum.fin q) = true → (b.score == JsNum.fin q) = true →
          scoreKeep a b = true := by
        intro a _ b _ hpa hpb
        exact (scoreKeep_fin (beq_iff_eq.mp hpa) (beq_iff_eq.mp hpb)).mpr le_rfl
      have h1 := assignRanks_filter_score (fun x => x == JsNum.fin q) 0
        (sortBy scoreKeep (leaderboardEntries rs))
      have h2 := @sortBy_filter LeaderboardEntry scoreKeep (fun e => e.score == JsNum.fin q) (leaderboardEntries rs) hcond
      show ((assignRanks 0 (sortBy scoreKeep (leaderboardEntries rs))).filter
          (fun e => e.score == JsNum.fin q)).map LeaderboardEntry.school = _
      rw [h1, h2]
  · decide

/-- C6 witness: the order-and-rank theorem applied to the three-score
example, whose entry scores are all finite. -/
theorem leaderboard_order_and_ranks_witness :
    (rankSchools exScores).Pairwise
      (fun a b => ∀ p q : ℚ, a.score = .fin p → b.score = .fin q → q ≤ p) :=
  (leaderboard_order_and_ranks.1 exScores (by decide)).1

/-- C5 counterexample: the leaderboard does not normalize its fields — it
uses raw JS `||` and `+` — so a textual recycle weight is concatenated,
not added: for a single record with `RECYCLE = "100"` and a null compost
the produced entry's total diverted is the string `"01000"`, not the
normalized sum `100`. -/
theorem rankSchools_no_normalizer_counterexample :
    rankSchools exStr = [⟨1, "S", "D", .fin 2, .vstr "01000"⟩]
    ∧ num (.vstr "100") + num .vnull = 100
    ∧ (JsVal.vstr "01000" : JsVal) ≠ .vnum (.fin 100) :=
  ⟨by decide, by decide, by decide⟩

/-- C5 (amended): on records whose measurement fields are numbers, `NaN`,
`null` or `undefined` (the typed row schema) with non-negative normalized
enrollments, the leaderboard groups records by school name alone
(ignoring the district and the period), accumulates for each school the
sum of the normalized recycle and compost amounts over every record of
the group, and the maximum normalized enrollment seen anywhere in the
group; the school's produced entry carries that accumulated total. -/
theorem rankSchools_grouping_amended :
    ∀ rs : List WasteRecord,
    (∀ r ∈ rs, finiteLike r.RECYCLE = true ∧ finiteLike r.COMPOST = true ∧
      finiteLike r.ENROLLMENT = true ∧ 0 ≤ num r.ENROLLMENT) →
    ∀ s : String, s ≠ "" → (∃ r ∈ rs, r.SCHOOL = some s) →
    ∃ st ∈ schoolStats rs, st.school = s
      ∧ st.diverted = .vnum (.fin (gSum s rs))
      ∧ (∃ r ∈ groupOf s rs, st.enrollment = .fin (num r.ENROLLMENT))
      ∧ (∀ r ∈ groupOf s rs, ∀ q : ℚ, st.enrollment = .fin q → num r.ENROLLMENT ≤ q)
      ∧ (∃ ent ∈ rankSchools rs, ent.school = s ∧ ent.totalDiverted = st.diverted) := by
  rintro rs hfin s hs ⟨r0, hr0, hr0s⟩
  have hkey : schoolKeyOf r0 = some s := by simp [schoolKeyOf, hr0s, hs]
  have hr0g : r0 ∈ groupOf s rs := List.mem_filter.mpr ⟨hr0, by simp [hkey]⟩
  have hgrp : groupOf s rs ≠ [] := List.ne_nil_of_mem hr0g
  have hgsub : ∀ r ∈ groupOf s rs, r ∈ rs := fun r hr => (List.mem_filter.mp hr).1
  obtain ⟨st1, hfind, hdiv, henr⟩ :=
    (foldl_statStep_spec rs []
      (fun r hr => ⟨(hfin r hr).1, (hfin r hr).2.1, (hfin r hr).2.2.1⟩) s).2 rfl hgrp
  have hsch := findStat_some_school hfind
  refine ⟨st1, hsch.2, hsch.1, hdiv, ?_, ?_, ?_⟩
  · -- the maximum is attained in the group
    rcases foldl_max_mem ((groupOf s rs).map (fun r => num r.ENROLLMENT)) 0 with h0 | hmem
    · -- the fold stayed at the seed 0: then the head value is itself 0
      have hle := foldl_max_le ((groupOf s rs).map (fun r => num r.ENROLLMENT)) 0
        (num r0.ENROLLMENT) (List.mem_map_of_mem _ hr0g)
      have hge := (hfin r0 hr0).2.2.2
      have hzero : num r0.ENROLLMENT = 0 := le_antisymm (by rw [← h0]; exact hle; ) hge
      refine ⟨r0, hr0g, ?_⟩
      rw [henr]
      show JsNum.fin (gMaxFrom 0 s rs) = JsNum.fin (num r0.ENROLLMENT)
      rw [hzero]
      simp only [gMaxFrom]
      rw [h0]
    · rcases List.mem_map.mp hmem with ⟨r, hrg, hrv⟩
      refine ⟨r, hrg, ?_⟩
      rw [henr]
      show JsNum.fin (gMaxFrom 0 s rs) = JsNum.fin (num r.ENROLLMENT)
      simp only [gMaxFrom]
      rw [hrv]
  · intro r hrg q hq
    rw [henr] at hq
    injection hq with hq
    rw [← hq]
    show num r.ENROLLMENT ≤ gMaxFrom 0 s rs
    exact foldl_max_le _ 0 _ (List.mem_map_of_mem _ hrg)
  · obtain ⟨ent, hent, h1, h2⟩ := rankSchools_elem_rev hsch.2
    exact ⟨ent, hent, by rw [h1, hsch.1], h2⟩

/-- C5 witness: the amended grouping theorem applied to the numeric
one-record example, for school `"S"`. -/
theorem rankSchools_grouping_amended_witness :
    ∃ st ∈ schoolStats exNum, st.school = "S"
      ∧ st.diverted = .vnum (.fin (gSum "S" exNum))
      ∧ (∃ r ∈ groupOf "S" exNum, st.enrollment = .fin (num r.ENROLLMENT))
      ∧ (∀ r ∈ groupOf "S" exNum, ∀ q : ℚ, st.enrollment = .fin q →
          num r.ENROLLMENT ≤ q)
      ∧ (∃ ent ∈ rankSchools exNum, ent.school = "S" ∧ ent.totalDiverted = st.diverted) :=
  rankSchools_grouping_amended exNum (by decide) "S" (by decide)
    ⟨exNum.head (by decide), by simp [exNum], by decide⟩

end ClaimSection
